import Mathlib

/-!
Verification of the CIFE Practice Tool's batch content generation
orchestrator (src/modules/content_generator.py) and upload signature
cache (src/main.py), as a shallow embedding in Lean 4.

Conventions of the embedding:
* Python dicts holding question records become structures with `Option`
  fields (a missing key is `none`; Python's falsy test on a string field
  is `= ""`).
* The external generation oracle (an OpenAI call wrapped by
  `generate_quiz`, which validates each raw record before returning) is
  modelled as a function from the call index (number of oracle calls made
  so far in the session), the canonical question type requested and the
  requested count to `Option (List Question)`; `none` models the call
  raising an exception, `some qs` models it returning the validated list
  `qs`.  The orchestrator's behaviour is quantified over all such
  functions.
* Whitespace handling follows Python's `str.strip` / `re.sub(r"\s+")`
  over the ASCII whitespace characters; `str.lower` is modelled by
  `Char.toLower` (ASCII case mapping).
-/

namespace CIFE

/-- Python's whitespace class for `str.strip` and the regex `\s`
(ASCII range): space, tab, newline, carriage return, form feed,
vertical tab. -/
def isPySpace (c : Char) : Bool :=
  c = ' ' || c = '\t' || c = '\n' || c = '\r' || c = '\x0c' || c = '\x0b'

/-- Python `str.strip()`: drop leading and trailing whitespace. -/
def pyStripList (l : List Char) : List Char :=
  ((l.dropWhile isPySpace).reverse.dropWhile isPySpace).reverse

/-- Python `re.sub(r"\s+", " ", s)`: each maximal run of whitespace
becomes a single space.  The boolean argument records whether the
previous character was whitespace. -/
def collapseWSAux : Bool → List Char → List Char
  | _, [] => []
  | prevSpace, c :: rest =>
    if isPySpace c then
      if prevSpace then collapseWSAux true rest
      else ' ' :: collapseWSAux true rest
    else c :: collapseWSAux false rest

/-- The `_norm` helper of `generate_quiz_from_analysis_batched`:
`(s or "").strip().lower()` followed by collapsing whitespace runs to
single spaces.  This is the fingerprint of a question prompt. -/
def pyNorm (s : String) : String :=
  ⟨collapseWSAux false ((pyStripList s.data).map Char.toLower)⟩

/-- A validated question record, the canonical Item shape produced by
`_validate_question` and threaded through the orchestrator. -/
structure Question where
  question_text : String
  question_type : String
  options : List String
  correct_answer_index : Int
  correct_answer : String
  explanation : String
  misconception_tag : String
  pairs : Option (List (String × String))
deriving Repr, DecidableEq

/-- A raw, untrusted record as returned by the oracle before
normalization: every key may be missing. -/
structure RawQuestion where
  question_text : Option String
  question_type : Option String
  options : Option (List String)
  correct_answer : Option String
  correct_answer_index : Option Int
  explanation : Option String
  misconception_tag : Option String
  pairs : Option (List (String × String))
deriving Repr, DecidableEq

/-- `question["question_type"].lower().replace(" ", "_").replace("-", "_")`. -/
def normTypeStr (s : String) : String :=
  ⟨s.data.map (fun c =>
    let c' := c.toLower
    if c' = ' ' || c' = '-' then '_' else c')⟩

/-- The alias table of `_validate_question`. -/
def typeAliases (s : String) : String :=
  if s = "mc" then "multiple_choice"
  else if s = "multiplechoice" then "multiple_choice"
  else if s = "tf" then "true_false"
  else if s = "truefalse" then "true_false"
  else if s = "sa" then "short_answer"
  else if s = "shortanswer" then "short_answer"
  else if s = "match" then "matching"
  else if s = "pairs" then "matching"
  else if s = "fill" then "fill_in_blank"
  else if s = "fillin" then "fill_in_blank"
  else if s = "blank" then "fill_in_blank"
  else if s = "fib" then "fill_in_blank"
  else s

def validTypes : List String :=
  ["multiple_choice", "true_false", "short_answer", "matching", "fill_in_blank"]

/-- Pad a list of options with empty strings up to four entries
(`while len(question["options"]) < 4: append("")`). -/
def padTo4 (l : List String) : List String :=
  l ++ List.replicate (4 - l.length) ""

/-- The matching-question conversion of options into pairs: each of the
first ten options containing a colon is split at the first colon into a
stripped (left, right) pair.  (The Python code also accepts dict
elements inside `options`; options are modelled as strings, which is the
shape every other code path produces.) -/
def optionsToPairs (opts : List String) : List (String × String) :=
  (opts.take 10).filterMap (fun o =>
    match o.data.splitOn ':' with
    | _ :: [] => none
    | [] => none
    | left :: restParts =>
        let right := (String.intercalate ":" (restParts.map (fun p => (⟨p⟩ : String)))).data
        some (⟨pyStripList left⟩, ⟨pyStripList right⟩))

/-- Python `str(x).lower() in ["true", "verdadero"]` test used for
true/false answers. -/
def isTrueAnswer (s : String) : Bool :=
  let l : String := ⟨s.data.map Char.toLower⟩
  l = "true" || l = "verdadero"

/-- The canonical question type after alias mapping and fallback
(`_validate_question`, content_generator.py lines 272-297). -/
def canonicalType (rawType : String) : String :=
  let t0 := typeAliases (normTypeStr rawType)
  if validTypes.contains t0 then t0 else "multiple_choice"

/-- The type-specific options/pairs repair of `_validate_question`
(content_generator.py lines 299-334): `none` rejects the record
(multiple_choice with fewer than two options). -/
def shapeOptions (qType : String) (options : Option (List String))
    (pairs : Option (List (String × String))) :
    Option (List String × Option (List (String × String))) :=
  if qType = "multiple_choice" then
    match options with
    | none => none
    | some os => if os.length < 2 then none else some (padTo4 os, pairs)
  else if qType = "true_false" then
    match options with
    | none => some (["True", "False"], pairs)
    | some os => if os.length < 2 then some (["True", "False"], pairs)
                 else some (os, pairs)
  else if qType = "matching" then
    match pairs with
    | some ps => some ([], some ps)
    | none =>
      match options with
      | some os => some ([], some (optionsToPairs os))
      | none => some ([], some [])
  else -- fill_in_blank, short_answer
    some ([], pairs)

/-- The `correct_answer_index` repair of `_validate_question`
(content_generator.py lines 336-344): a supplied index is kept as-is;
otherwise it is located in the (already shaped) options for
multiple_choice, derived from the answer text for true_false, and -1
otherwise. -/
def answerIndex (qType : String) (opts : List String) (ans : String)
    (supplied : Option Int) : Int :=
  match supplied with
  | some i => i
  | none =>
    if qType = "multiple_choice" && opts.contains ans then
      (opts.indexOf ans : Nat)
    else if qType = "true_false" then
      if isTrueAnswer ans then 0 else 1
    else (-1)

/-- Default a possibly-missing free-text field
(content_generator.py lines 346-352). -/
def defaultField (v : Option String) (d : String) : String :=
  match v with
  | some s => if s = "" then d else s
  | none => d

/-- The Item Normalizer `_validate_question`: validates and repairs a
raw record into a canonical `Question`, or rejects it (`none`).
Mirrors src/modules/content_generator.py lines 258-354. -/
def validateQuestion (q : RawQuestion) : Option Question :=
  -- required fields: question_text, question_type, correct_answer
  match q.question_text, q.question_type, q.correct_answer with
  | some qtext, some rawType, some ans =>
    if qtext = "" || rawType = "" || ans = "" then none
    else
      match shapeOptions (canonicalType rawType) q.options q.pairs with
      | none => none
      | some (opts, prs) =>
        some { question_text := qtext
               question_type := canonicalType rawType
               options := opts
               correct_answer_index :=
                 answerIndex (canonicalType rawType) opts ans q.correct_answer_index
               correct_answer := ans
               explanation := defaultField q.explanation "Great job reviewing this concept!"
               misconception_tag := defaultField q.misconception_tag "General concept check"
               pairs := prs }
  | _, _, _ => none

/-! ## The quota allocator (`_overshoot_buffer`)

Python computes `math.ceil(remaining * 0.1)` in IEEE double precision.
The multiplication is modelled exactly: the double nearest to 0.1 is
`3602879701896397 * 2^(-55)`, the product with the (exactly converted)
integer `remaining` is formed as an exact rational and rounded to 53
significant bits with round-to-nearest, ties-to-even.  The model is
exact for every `remaining < 2^53` (the range in which the integer
itself converts to double without rounding). -/

/-- Mantissa of the IEEE double nearest to 0.1: `0.1 = fpTenthMant * 2^(-55)`. -/
def fpTenthMant : Nat := 3602879701896397

/-- Number of bits of a positive natural (0 for 0), computed by
structural recursion on a fuel argument so that the kernel can
evaluate it on literals; `bitlen_eq_log2` relates it to `Nat.log2`. -/
def bitlenAux : Nat → Nat → Nat
  | 0, _ => 0
  | fuel + 1, n => if n = 0 then 0 else bitlenAux fuel (n / 2) + 1

def bitlen (n : Nat) : Nat := bitlenAux n n

/-- Round `p / 2^k` to an integer, round-half-even (used with `k ≥ 1`). -/
def roundHalfEven (p k : Nat) : Nat :=
  let d := p / 2 ^ k
  let rem := p % 2 ^ k
  let half := 2 ^ (k - 1)
  if half < rem then d + 1
  else if rem < half then d
  else if d % 2 = 0 then d else d + 1

/-- The IEEE double nearest to `r * 0.1` (for `r < 2^53`), expressed in
units of `2^(-55)`: the exact product `r * fpTenthMant` rounded to 53
significant bits. -/
def fmulTenthVal (r : Nat) : Nat :=
  let p := r * fpTenthMant
  let L := bitlen p
  if L ≤ 53 then p
  else roundHalfEven p (L - 53) * 2 ^ (L - 53)

/-- `math.ceil(r * 0.1)` under IEEE double semantics. -/
def fceilTenth (r : Nat) : Nat := (fmulTenthVal r + (2 ^ 55 - 1)) / 2 ^ 55

/-- `_overshoot_buffer` (content_generator.py lines 459-465). -/
def overshootBuffer (remaining : Nat) : Nat :=
  if remaining ≤ 3 then 2
  else if remaining ≤ 10 then 3
  else min 5 (max 2 (fceilTenth remaining))

/-- `request_n = min(batch_size, remaining + _overshoot_buffer(remaining))`. -/
def requestN (batchSize remaining : Nat) : Nat :=
  min batchSize (remaining + overshootBuffer remaining)

/-- Exact ceiling division on naturals. -/
def ceilDiv (a b : Nat) : Nat := (a + b - 1) / b

/-- `max_attempts = max(6, math.ceil(target / max(1, batch_size)) + 4)`.
Python divides in double precision; for every `target < 2^53` the
double ceiling coincides with the exact ceiling used here, because a
non-integer quotient then lies at distance at least `1/batch_size` from
the integers while the division's rounding error is below
`target * 2^(-53) / batch_size`. -/
def maxAttempts (target batchSize : Nat) : Nat :=
  max 6 (ceilDiv target (max 1 batchSize) + 4)

/-! ## The generation session -/

/-- The mutable state of `generate_quiz_from_analysis_batched`:
the accepted list `all_questions`, the fingerprint set `seen_questions`
(as a list of distinct fingerprints), and — for specification purposes —
the trace of oracle calls made so far, each recorded as
(label, requested count) with label "mc" / "tf" / "sa" for the three
per-category retry loops and "topup" for the final top-up call. -/
structure SessState where
  all_questions : List Question
  seen : List String
  calls : List (String × Nat)
deriving Repr, DecidableEq

/-- An oracle behaviour: from the call index (number of oracle calls
already made in this session), the canonical question type requested and
the requested count, either `none` (the `generate_quiz` call raised) or
`some qs` (it returned the validated list `qs`). -/
def Oracle : Type := Nat → String → Nat → Option (List Question)

/-- The question-prompt fingerprint used for deduplication. -/
def fpOf (q : Question) : String := pyNorm q.question_text

/-- `_append_unique` (content_generator.py lines 447-457): reject an
item whose fingerprint is empty or already seen, otherwise record the
fingerprint and append the item.  Returns the new state and whether the
item was appended. -/
def appendUnique (st : SessState) (q : Question) : SessState × Bool :=
  let t := fpOf q
  if t = "" then (st, false)
  else if t ∈ st.seen then (st, false)
  else ({ st with all_questions := st.all_questions ++ [q],
                  seen := st.seen ++ [t] }, true)

/-- `sum(1 for q in all_questions if q.get("question_type") == ty)`. -/
def countType (qs : List Question) (ty : String) : Nat :=
  qs.countP (fun q => q.question_type == ty)

/-- The inner `for q in batch` loop of `_generate_for_type`: force the
expected type onto each item, attempt `_append_unique`, and stop early
once the expected type's accepted count reaches the target.  Returns the
new state and the number of newly accepted items (`added`). -/
def processBatch (expected : String) (target : Nat) :
    List Question → SessState → Nat → SessState × Nat
  | [], st, added => (st, added)
  | q :: rest, st, added =>
    let q' := { q with question_type := expected }
    let (st', ok) := appendUnique st q'
    let added' := if ok then added + 1 else added
    if target ≤ countType st'.all_questions expected then (st', added')
    else processBatch expected target rest st' added'

/-- One `while attempts < max_attempts` loop of `_generate_for_type`,
with `fuel = max_attempts - attempts` (each iteration that does not
break consumes one attempt) and the current stagnation count.  An
exception from the oracle consumes an attempt and re-enters the loop
with the stagnation count unchanged (the Python `continue`). -/
def genLoop (oracle : Oracle) (label expected : String)
    (target batchSize : Nat) : Nat → Nat → SessState → SessState
  | 0, _, st => st
  | fuel + 1, stagnant, st =>
    let current := countType st.all_questions expected
    if target ≤ current then st
    else
      let remaining := target - current
      let rn := requestN batchSize remaining
      let st0 := { st with calls := st.calls ++ [(label, rn)] }
      match oracle st.calls.length expected rn with
      | none => genLoop oracle label expected target batchSize fuel stagnant st0
      | some batch =>
        let (st1, added) := processBatch expected target batch st0 0
        let stagnant' := if added = 0 then stagnant + 1 else 0
        if 2 ≤ stagnant' then st1
        else genLoop oracle label expected target batchSize fuel stagnant' st1

/-- `_generate_for_type` (content_generator.py lines 467-536). -/
def generateForType (oracle : Oracle) (label expected : String)
    (target batchSize : Nat) (st : SessState) : SessState :=
  if target = 0 then st
  else genLoop oracle label expected target batchSize
        (maxAttempts target batchSize) 0 st

/-- The `for q in batch` loop of the final top-up pass: force type
multiple_choice, `_append_unique`, stop once the total reaches the
overall request. -/
def topupProcess (total : Nat) : List Question → SessState → SessState
  | [], st => st
  | q :: rest, st =>
    let (st', _) := appendUnique st { q with question_type := "multiple_choice" }
    if total ≤ st'.all_questions.length then st'
    else topupProcess total rest st'

/-- The state after the three per-category retry loops of
`generate_quiz_from_analysis_batched`. -/
def sessionAfterLoops (oracle : Oracle) (mc tf sa batchSize : Nat) : SessState :=
  let st0 : SessState := ⟨[], [], []⟩
  let st1 := generateForType oracle "mc" "multiple_choice" mc batchSize st0
  let st2 := generateForType oracle "tf" "true_false" tf batchSize st1
  generateForType oracle "sa" "short_answer" sa batchSize st2

/-- The full session: three per-category loops, then at most one
top-up call (requesting multiple_choice filler) when the total is still
short of `mc + tf + sa`. -/
def generateSession (oracle : Oracle) (mc tf sa batchSize : Nat) : SessState :=
  let st3 := sessionAfterLoops oracle mc tf sa batchSize
  let total := mc + tf + sa
  if st3.all_questions.length < total then
    let remaining := total - st3.all_questions.length
    let rn := requestN batchSize remaining
    let st4 := { st3 with calls := st3.calls ++ [("topup", rn)] }
    match oracle st3.calls.length "multiple_choice" rn with
    | none => st4
    | some batch => topupProcess total batch st4
  else st3

/-- `generate_quiz_from_analysis_batched`'s return value: the accepted
list trimmed to the overall request (content_generator.py line 566). -/
def generateQuizBatched (oracle : Oracle) (mc tf sa batchSize : Nat) :
    List Question :=
  (generateSession oracle mc tf sa batchSize).all_questions.take (mc + tf + sa)

/-- Number of oracle calls carrying a given trace label. -/
def countLabel (calls : List (String × Nat)) (label : String) : Nat :=
  calls.countP (fun c => c.1 == label)

/-! ## C7: the quota allocator formula -/

/-- The spec's overshoot formula (spec.md §4.3), with the exact rational
ceiling of `remaining / 10`. -/
def specOvershoot (r : Nat) : Nat :=
  if r ≤ 3 then 2
  else if r ≤ 10 then 3
  else min 5 (max 2 (ceilDiv r 10))

theorem bitlenAux_eq (fuel n : Nat) (h : n ≤ fuel) :
    bitlenAux fuel n = if n = 0 then 0 else Nat.log2 n + 1 := by
  induction fuel generalizing n with
  | zero =>
    have : n = 0 := by omega
    subst this
    rfl
  | succ fuel ih =>
    by_cases h0 : n = 0
    · subst h0
      rfl
    · have hlt : n / 2 < n := Nat.div_lt_self (by omega) (by omega)
      have hle : n / 2 ≤ fuel := by omega
      show (if n = 0 then 0 else bitlenAux fuel (n / 2) + 1) = _
      rw [if_neg h0, if_neg h0, ih (n / 2) hle]
      by_cases h1 : n / 2 = 0
      · rw [if_pos h1]
        have hn1 : n = 1 := by omega
        subst hn1
        have : Nat.log2 1 = 0 := by
          have := (Nat.log2_lt (n := 1) (by omega)).mpr
            (show (1 : Nat) < 2 ^ 1 by norm_num)
          omega
        rw [this]
      · rw [if_neg h1]
        have h2 : 2 ≤ n := by omega
        have hl2 : Nat.log2 n = Nat.log2 (n / 2) + 1 := by
          conv_lhs => rw [Nat.log2]
          rw [if_pos h2]
        omega

theorem bitlen_eq_log2 (n : Nat) (h : 1 ≤ n) : bitlen n = Nat.log2 n + 1 := by
  unfold bitlen
  rw [bitlenAux_eq n n (Nat.le_refl n), if_neg (by omega)]

theorem roundHalfEven_ge (p k : Nat) : p / 2 ^ k ≤ roundHalfEven p k := by
  unfold roundHalfEven
  dsimp only
  split
  · exact Nat.le_succ_of_le (Nat.le_refl _)
  · split
    · exact Nat.le_refl _
    · split
      · exact Nat.le_refl _
      · exact Nat.le_succ_of_le (Nat.le_refl _)

theorem roundHalfEven_le (p k : Nat) : roundHalfEven p k ≤ p / 2 ^ k + 1 := by
  unfold roundHalfEven
  dsimp only
  split
  · exact Nat.le_refl _
  · split
    · exact Nat.le_succ_of_le (Nat.le_refl _)
    · split
      · exact Nat.le_succ_of_le (Nat.le_refl _)
      · exact Nat.le_refl _

/-- The rounded product lies within one part in `2^52` of the exact
product `p = r * fpTenthMant` (for `r ≥ 3`, where normalization rounds). -/
theorem fmulTenthVal_bracket (r : Nat) (h : 3 ≤ r) :
    r * fpTenthMant - r * fpTenthMant / 2 ^ 52 ≤ fmulTenthVal r ∧
    fmulTenthVal r ≤ r * fpTenthMant + r * fpTenthMant / 2 ^ 52 := by
  have hC : 3 * fpTenthMant ≤ r * fpTenthMant := Nat.mul_le_mul_right _ h
  unfold fmulTenthVal
  dsimp only
  set p := r * fpTenthMant with hp
  have hple : 10808639105689191 ≤ p := by
    calc (10808639105689191 : Nat) = 3 * fpTenthMant := by decide
    _ ≤ p := hC
  have hpbig : 2 ^ 53 < p := lt_of_lt_of_le (by decide) hple
  have hlog : 53 ≤ Nat.log2 p := by
    have := (Nat.le_log2 (by omega)).mpr (le_of_lt hpbig)
    omega
  have hL : bitlen p = Nat.log2 p + 1 := bitlen_eq_log2 p (by omega)
  rw [if_neg (by omega)]
  set k := bitlen p - 53 with hk
  have h2k : 2 ^ k * 2 ^ 52 ≤ p := by
    have h1 : 2 ^ Nat.log2 p ≤ p := Nat.log2_self_le (by omega)
    have h2 : k + 52 ≤ Nat.log2 p := by omega
    calc 2 ^ k * 2 ^ 52 = 2 ^ (k + 52) := by rw [pow_add]
    _ ≤ 2 ^ Nat.log2 p := Nat.pow_le_pow_right (by omega) h2
    _ ≤ p := h1
  have hkdiv : 2 ^ k ≤ p / 2 ^ 52 :=
    (Nat.le_div_iff_mul_le (by positivity)).mpr h2k
  have hdm : 2 ^ k * (p / 2 ^ k) + p % 2 ^ k = p := Nat.div_add_mod p (2 ^ k)
  have hlt : p % 2 ^ k < 2 ^ k := Nat.mod_lt _ (Nat.pos_pow_of_pos _ (by omega))
  have hcomm : p / 2 ^ k * 2 ^ k = 2 ^ k * (p / 2 ^ k) := Nat.mul_comm _ _
  constructor
  · have h2 := roundHalfEven_ge p k
    have h3 : p / 2 ^ k * 2 ^ k ≤ roundHalfEven p k * 2 ^ k :=
      Nat.mul_le_mul_right _ h2
    omega
  · have h2 := roundHalfEven_le p k
    have h3 : roundHalfEven p k * 2 ^ k ≤ (p / 2 ^ k + 1) * 2 ^ k :=
      Nat.mul_le_mul_right _ h2
    have h4 : (p / 2 ^ k + 1) * 2 ^ k = p / 2 ^ k * 2 ^ k + 2 ^ k := by ring
    omega

theorem fceilTenth_ge_five (r : Nat) (h : 41 ≤ r) : 5 ≤ fceilTenth r := by
  have hbr := (fmulTenthVal_bracket r (by omega)).1
  have hC : 41 * fpTenthMant ≤ r * fpTenthMant := Nat.mul_le_mul_right _ h
  have hv : 2 ^ 57 + 1 ≤ fmulTenthVal r := by
    have h1 : (147718067777752277 : Nat) = 41 * fpTenthMant := by decide
    omega
  unfold fceilTenth
  have h5 : 5 * 2 ^ 55 ≤ fmulTenthVal r + (2 ^ 55 - 1) := by
    have : (5 : Nat) * 2 ^ 55 = 2 ^ 57 + 2 ^ 55 := by decide
    omega
  exact (Nat.le_div_iff_mul_le (by positivity)).mpr h5

set_option maxRecDepth 4000 in
/-- The overshoot buffer of the code (IEEE double model) coincides with
the spec's exact formula at every remaining count. -/
theorem overshootBuffer_eq_spec (r : Nat) : overshootBuffer r = specOvershoot r := by
  unfold overshootBuffer specOvershoot
  by_cases h3 : r ≤ 3
  · simp [h3]
  · by_cases h10 : r ≤ 10
    · simp [h3, h10]
    · rw [if_neg h3, if_neg h10, if_neg h3, if_neg h10]
      by_cases h40 : r ≤ 40
      · interval_cases r <;> decide
      · have h41 : 41 ≤ r := by omega
        have hf : 5 ≤ fceilTenth r := fceilTenth_ge_five r h41
        have hc : 5 ≤ ceilDiv r 10 := by
          unfold ceilDiv
          omega
        omega

/-- C7: the quota allocator requests
min(batch_size_ceiling, remaining + overshoot(remaining)) with
overshoot(remaining) = 2 for remaining ≤ 3, 3 for remaining ≤ 10, and
min(5, max(2, ceil(remaining/10))) otherwise; in particular
remaining = 7 with batch size 10 requests 10, and remaining = 2 with
batch size 10 requests 4. -/
theorem quota_allocator_formula :
    (∀ r B : Nat, requestN B r = min B (r + specOvershoot r)) ∧
    requestN 10 7 = 10 ∧ requestN 10 2 = 4 := by
  refine ⟨fun r B => ?_, by decide, by decide⟩
  unfold requestN
  rw [overshootBuffer_eq_spec]

/-! ## C10: question_type is a required field -/

/-- C10: a raw record whose question_type field is absent or empty
(falsy) is rejected by the normalizer. -/
theorem validateQuestion_requires_type (q : RawQuestion)
    (h : q.question_type = none ∨ q.question_type = some "") :
    validateQuestion q = none := by
  unfold validateQuestion
  rcases h with h | h <;> rw [h]
  · rcases q.question_text with _ | t <;> rcases q.correct_answer with _ | a <;> rfl
  · rcases q.question_text with _ | t <;> rcases q.correct_answer with _ | a <;> simp

/-! ## C4: normalizer option-cardinality invariant -/

/-- A raw multiple-choice record with five options and a supplied,
inconsistent `correct_answer_index`. -/
def c4RawRecord : RawQuestion :=
  { question_text := some "Which planet is largest?"
    question_type := some "multiple_choice"
    options := some ["Mars", "Jupiter", "Venus", "Saturn", "Earth"]
    correct_answer := some "Jupiter"
    correct_answer_index := some 4
    explanation := none
    misconception_tag := none
    pairs := none }

/-- The item the normalizer accepts for `c4RawRecord`. -/
def c4Item : Question :=
  { question_text := "Which planet is largest?"
    question_type := "multiple_choice"
    options := ["Mars", "Jupiter", "Venus", "Saturn", "Earth"]
    correct_answer_index := 4
    correct_answer := "Jupiter"
    explanation := "Great job reviewing this concept!"
    misconception_tag := "General concept check"
    pairs := none }

/-- C4 counterexample: the normalizer accepts a multiple-choice record
with five options — the options list is not trimmed to the category's
cardinality of four — and keeps the supplied `correct_answer_index` 4
even though `correct_answer` sits at index 1 of `options`. -/
theorem validateQuestion_c4_counterexample :
    validateQuestion c4RawRecord = some c4Item ∧
    c4Item.question_type = "multiple_choice" ∧
    c4Item.options.length = 5 ∧
    ¬ c4Item.options.length = 4 ∧
    c4Item.options.contains c4Item.correct_answer = true ∧
    c4Item.options.indexOf c4Item.correct_answer = 1 ∧
    c4Item.correct_answer_index = 4 := by
  refine ⟨by decide, rfl, by decide, by decide, by decide, by decide, rfl⟩

/-- C4 amended: for every accepted record, multiple-choice options are
padded with empty strings to at least four entries (never truncated:
the result is exactly the supplied list plus padding), true/false
options are defaulted to [True, False] only when fewer than two were
supplied, every other category gets an empty options list; and the
`correct_answer_index` is the index of `correct_answer` in the shaped
options whenever the raw record did not supply an index and the answer
occurs there (multiple-choice). -/
theorem validateQuestion_options_shape (rq : RawQuestion) (q : Question)
    (h : validateQuestion rq = some q) :
    (q.question_type = "multiple_choice" →
      ∃ os, rq.options = some os ∧ 2 ≤ os.length ∧
        q.options = os ++ List.replicate (4 - os.length) "" ∧
        4 ≤ q.options.length) ∧
    (q.question_type = "true_false" →
      q.options = (match rq.options with
        | some os => if os.length < 2 then ["True", "False"] else os
        | none => ["True", "False"])) ∧
    ((q.question_type = "short_answer" ∨ q.question_type = "matching" ∨
      q.question_type = "fill_in_blank") → q.options = []) ∧
    (rq.correct_answer_index = none → q.question_type = "multiple_choice" →
      q.options.contains q.correct_answer = true →
      q.correct_answer_index = (q.options.indexOf q.correct_answer : Nat)) := by
  unfold validateQuestion at h
  rcases ht : rq.question_text with _ | qtext <;> rw [ht] at h
  · rcases rq.question_type <;> rcases rq.correct_answer <;> exact Option.noConfusion h
  rcases hty : rq.question_type with _ | rawType <;> rw [hty] at h
  · rcases rq.correct_answer <;> exact Option.noConfusion h
  rcases ha : rq.correct_answer with _ | ans <;> rw [ha] at h
  · exact Option.noConfusion h
  replace h : (if (decide (qtext = "") || decide (rawType = "") || decide (ans = "")) = true
      then none
      else match shapeOptions (canonicalType rawType) rq.options rq.pairs with
        | none => none
        | some (opts, prs) =>
          some { question_text := qtext
                 question_type := canonicalType rawType
                 options := opts
                 correct_answer_index :=
                   answerIndex (canonicalType rawType) opts ans rq.correct_answer_index
                 correct_answer := ans
                 explanation := defaultField rq.explanation "Great job reviewing this concept!"
                 misconception_tag := defaultField rq.misconception_tag "General concept check"
                 pairs := prs }) = some q := h
  by_cases hc : (decide (qtext = "") || decide (rawType = "") || decide (ans = "")) = true
  · rw [if_pos hc] at h
    exact Option.noConfusion h
  · rw [if_neg hc] at h
    rcases hsh : shapeOptions (canonicalType rawType) rq.options rq.pairs
      with _ | ⟨opts, prs⟩ <;> rw [hsh] at h
    · exact Option.noConfusion h
    · injection h with h
      subst h
      have hshape := hsh
      unfold shapeOptions at hshape
      by_cases hmc : canonicalType rawType = "multiple_choice"
      · -- multiple_choice shaping
        rw [if_pos hmc] at hshape
        rcases ho : rq.options with _ | os <;> rw [ho] at hshape
        · exact Option.noConfusion hshape
        · replace hshape : (if os.length < 2 then none
              else some (padTo4 os, rq.pairs)) = some (opts, prs) := hshape
          by_cases hlen : os.length < 2
          · rw [if_pos hlen] at hshape
            exact Option.noConfusion hshape
          · rw [if_neg hlen] at hshape
            injection hshape with hshape
            injection hshape with h1 h2
            refine ⟨fun _ => ⟨os, rfl, by omega, ?_, ?_⟩, ?_, ?_, ?_⟩
            · show opts = os ++ List.replicate (4 - os.length) ""
              rw [← h1]
              rfl
            · show 4 ≤ opts.length
              rw [← h1]
              unfold padTo4
              rw [List.length_append, List.length_replicate]
              omega
            · intro htf
              replace htf : canonicalType rawType = "true_false" := htf
              exact absurd (hmc.symm.trans htf) (by decide)
            · intro hother
              replace hother : canonicalType rawType = "short_answer" ∨
                canonicalType rawType = "matching" ∨
                canonicalType rawType = "fill_in_blank" := hother
              rcases hother with h1 | h1 | h1 <;>
                exact absurd (hmc.symm.trans h1) (by decide)
            · intro hidx _ hcontains
              replace hcontains : opts.contains ans = true := hcontains
              show answerIndex (canonicalType rawType) opts ans
                rq.correct_answer_index = (opts.indexOf ans : Nat)
              rw [hidx]
              unfold answerIndex
              rw [hmc]
              simp only [hcontains, Bool.and_true, decide_eq_true_eq]
              simp
      · rw [if_neg hmc] at hshape
        by_cases htf : canonicalType rawType = "true_false"
        · -- true_false shaping
          rw [if_pos htf] at hshape
          have hopts : opts = (match rq.options with
              | some os => if os.length < 2 then ["True", "False"] else os
              | none => ["True", "False"]) := by
            rcases ho : rq.options with _ | os <;> rw [ho] at hshape
            · injection hshape with hshape
              injection hshape with h1 h2
              exact h1.symm
            · replace hshape : (if os.length < 2 then some (["True", "False"], rq.pairs)
                  else some (os, rq.pairs)) = some (opts, prs) := hshape
              by_cases hlen : os.length < 2
              · rw [if_pos hlen] at hshape
                injection hshape with hshape
                injection hshape with h1 h2
                show opts = if os.length < 2 then ["True", "False"] else os
                rw [if_pos hlen]
                exact h1.symm
              · rw [if_neg hlen] at hshape
                injection hshape with hshape
                injection hshape with h1 h2
                show opts = if os.length < 2 then ["True", "False"] else os
                rw [if_neg hlen]
                exact h1.symm
          refine ⟨?_, fun _ => hopts, ?_, ?_⟩
          · intro hq
            replace hq : canonicalType rawType = "multiple_choice" := hq
            exact absurd hq hmc
          · intro hother
            replace hother : canonicalType rawType = "short_answer" ∨
              canonicalType rawType = "matching" ∨
              canonicalType rawType = "fill_in_blank" := hother
            rcases hother with h1 | h1 | h1 <;>
              exact absurd (htf.symm.trans h1) (by decide)
          · intro hidx hq
            replace hq : canonicalType rawType = "multiple_choice" := hq
            exact absurd hq hmc
        · -- matching / short_answer / fill_in_blank shaping
          rw [if_neg htf] at hshape
          have hopts : opts = [] := by
            by_cases hm : canonicalType rawType = "matching"
            · rw [if_pos hm] at hshape
              rcases hp : rq.pairs with _ | ps <;> rw [hp] at hshape
              · rcases ho2 : rq.options with _ | os2 <;> rw [ho2] at hshape <;>
                  · injection hshape with hshape
                    injection hshape with h1 h2
                    exact h1.symm
              · injection hshape with hshape
                injection hshape with h1 h2
                exact h1.symm
            · rw [if_neg hm] at hshape
              injection hshape with hshape
              injection hshape with h1 h2
              exact h1.symm
          refine ⟨?_, ?_, fun _ => hopts, ?_⟩
          · intro hq
            replace hq : canonicalType rawType = "multiple_choice" := hq
            exact absurd hq hmc
          · intro hq
            replace hq : canonicalType rawType = "true_false" := hq
            exact absurd hq htf
          · intro hidx hq
            replace hq : canonicalType rawType = "multiple_choice" := hq
            exact absurd hq hmc

/-- Witness for C4's amended theorem at the five-option record. -/
theorem validateQuestion_options_shape_witness :
    ((c4Item.question_type = "multiple_choice" →
      ∃ os, c4RawRecord.options = some os ∧ 2 ≤ os.length ∧
        c4Item.options = os ++ List.replicate (4 - os.length) "" ∧
        4 ≤ c4Item.options.length) ∧
    (c4Item.question_type = "true_false" →
      c4Item.options = (match c4RawRecord.options with
        | some os => if os.length < 2 then ["True", "False"] else os
        | none => ["True", "False"])) ∧
    ((c4Item.question_type = "short_answer" ∨ c4Item.question_type = "matching" ∨
      c4Item.question_type = "fill_in_blank") → c4Item.options = []) ∧
    (c4RawRecord.correct_answer_index = none → c4Item.question_type = "multiple_choice" →
      c4Item.options.contains c4Item.correct_answer = true →
      c4Item.correct_answer_index = (c4Item.options.indexOf c4Item.correct_answer : Nat))) :=
  validateQuestion_options_shape c4RawRecord c4Item (by decide)

/-! ## C6 and C9: the upload signature (src/main.py lines 313-330) -/

/-- An uploaded artifact as `_compute_upload_signature` consumes it:
a file name together with the outcome of reading it — `some (length,
hash)` for a successful read (the byte length and the 12-hex-digit MD5
prefix of the content), `none` when reading raises. -/
structure UploadFile where
  name : String
  read : Option (Nat × String)
deriving Repr, DecidableEq

/-- One entry of `sig_parts`: `f"{name}:{len}:{hash}"` on success,
`f"{name}:unknown"` when the read raised (the `except` branch). -/
def sigPart (f : UploadFile) : String :=
  match f.read with
  | some (len, hash) => f.name ++ ":" ++ toString len ++ ":" ++ hash
  | none => f.name ++ ":unknown"

/-- `_compute_upload_signature`: empty string for no files, otherwise
the sorted parts joined with a pipe. -/
def computeUploadSignature (files : List UploadFile) : String :=
  if files = [] then ""
  else String.intercalate "|" ((files.map sigPart).insertionSort (· ≤ ·))

/-- Modelled from the spec: spec.md §7 requires signature computation to
propagate a hard failure to the caller when any artifact is unreadable
("there is no silent fallback"); this spec-side definition returns
`none` in that case and the code's signature otherwise. -/
def computeUploadSignatureSpec (files : List UploadFile) : Option String :=
  if files.all (fun f => f.read.isSome) then some (computeUploadSignature files)
  else none

/-- C6 counterexample: on an unreadable artifact the code returns the
signature string "notes.png:unknown" — a silent fallback — where the
spec-side definition propagates the failure. -/
theorem uploadSignature_c6_counterexample :
    computeUploadSignature [⟨"notes.png", none⟩] = "notes.png:unknown" ∧
    computeUploadSignatureSpec [⟨"notes.png", none⟩] = none := by
  constructor
  · rfl
  · rfl

/-- C6 amended: `_compute_upload_signature` never propagates a read
failure; it always returns a string, and each unreadable artifact
contributes the fallback part `name:unknown` to the joined signature,
while on lists whose artifacts are all readable it agrees with the
spec's hard-failure version. -/
theorem uploadSignature_fallback (files : List UploadFile) :
    ((∀ f ∈ files, f.read.isSome) →
      computeUploadSignatureSpec files = some (computeUploadSignature files)) ∧
    (∀ f ∈ files, f.read = none →
      (f.name ++ ":unknown") ∈ files.map sigPart) := by
  constructor
  · intro hall
    unfold computeUploadSignatureSpec
    rw [if_pos]
    rw [List.all_eq_true]
    intro f hf
    exact hall f hf
  · intro f hf hnone
    have : sigPart f = f.name ++ ":unknown" := by
      unfold sigPart
      rw [hnone]
    rw [← this]
    exact List.mem_map_of_mem sigPart hf

/-- Witness for C6's amended theorem at a concrete two-file list. -/
theorem uploadSignature_fallback_witness :
    ((∀ f ∈ [(⟨"a.png", some (3, "aaaa")⟩ : UploadFile), ⟨"b.png", none⟩], f.read.isSome) →
      computeUploadSignatureSpec [⟨"a.png", some (3, "aaaa")⟩, ⟨"b.png", none⟩] =
        some (computeUploadSignature [⟨"a.png", some (3, "aaaa")⟩, ⟨"b.png", none⟩])) ∧
    (∀ f ∈ [(⟨"a.png", some (3, "aaaa")⟩ : UploadFile), ⟨"b.png", none⟩], f.read = none →
      (f.name ++ ":unknown") ∈
        [(⟨"a.png", some (3, "aaaa")⟩ : UploadFile), ⟨"b.png", none⟩].map sigPart) :=
  uploadSignature_fallback [⟨"a.png", some (3, "aaaa")⟩, ⟨"b.png", none⟩]

/-- Witness for C10 at a concrete record. -/
theorem validateQuestion_requires_type_witness :
    validateQuestion { question_text := some "What is 2+2?",
                       question_type := none,
                       options := some ["3", "4"],
                       correct_answer := some "4",
                       correct_answer_index := none,
                       explanation := none,
                       misconception_tag := none,
                       pairs := none } = none :=
  validateQuestion_requires_type _ (Or.inl rfl)

/-! ## Step equations for the orchestrator loops -/

theorem processBatch_nil (expected : String) (target : Nat) (st : SessState)
    (added : Nat) : processBatch expected target [] st added = (st, added) := rfl

theorem processBatch_cons (expected : String) (target : Nat) (q : Question)
    (rest : List Question) (st st' : SessState) (ok : Bool) (added : Nat)
    (hA : appendUnique st { q with question_type := expected } = (st', ok)) :
    processBatch expected target (q :: rest) st added =
      if target ≤ countType st'.all_questions expected
      then (st', if ok then added + 1 else added)
      else processBatch expected target rest st' (if ok then added + 1 else added) := by
  conv_lhs => rw [processBatch]
  simp only []
  rw [hA]

theorem genLoop_zero (oracle : Oracle) (label expected : String)
    (target batchSize stagnant : Nat) (st : SessState) :
    genLoop oracle label expected target batchSize 0 stagnant st = st := rfl

theorem genLoop_done (oracle : Oracle) (label expected : String)
    (target batchSize fuel stagnant : Nat) (st : SessState)
    (h : target ≤ countType st.all_questions expected) :
    genLoop oracle label expected target batchSize (fuel + 1) stagnant st = st := by
  conv_lhs => rw [genLoop]
  rw [if_pos h]

theorem genLoop_fail (oracle : Oracle) (label expected : String)
    (target batchSize fuel stagnant : Nat) (st : SessState)
    (h : ¬ target ≤ countType st.all_questions expected)
    (hO : oracle st.calls.length expected
      (requestN batchSize (target - countType st.all_questions expected)) = none) :
    genLoop oracle label expected target batchSize (fuel + 1) stagnant st =
      genLoop oracle label expected target batchSize fuel stagnant
        { st with calls := st.calls ++
            [(label, requestN batchSize (target - countType st.all_questions expected))] } := by
  conv_lhs => rw [genLoop]
  rw [if_neg h]
  simp only []
  rw [hO]

theorem genLoop_batch (oracle : Oracle) (label expected : String)
    (target batchSize fuel stagnant : Nat) (st st1 : SessState)
    (batch : List Question) (added : Nat)
    (h : ¬ target ≤ countType st.all_questions expected)
    (hO : oracle st.calls.length expected
      (requestN batchSize (target - countType st.all_questions expected)) = some batch)
    (hP : processBatch expected target batch
      { st with calls := st.calls ++
          [(label, requestN batchSize (target - countType st.all_questions expected))] } 0 =
        (st1, added)) :
    genLoop oracle label expected target batchSize (fuel + 1) stagnant st =
      (if 2 ≤ (if added = 0 then stagnant + 1 else 0) then st1
       else genLoop oracle label expected target batchSize fuel
         (if added = 0 then stagnant + 1 else 0) st1) := by
  conv_lhs => rw [genLoop]
  rw [if_neg h]
  simp only []
  rw [hO]
  simp only []
  rw [hP]

theorem generateForType_zero (oracle : Oracle) (label expected : String)
    (batchSize : Nat) (st : SessState) :
    generateForType oracle label expected 0 batchSize st = st := rfl

theorem generateForType_pos (oracle : Oracle) (label expected : String)
    (target batchSize : Nat) (st : SessState) (h : target ≠ 0) :
    generateForType oracle label expected target batchSize st =
      genLoop oracle label expected target batchSize
        (maxAttempts target batchSize) 0 st := by
  unfold generateForType
  rw [if_neg h]

theorem topupProcess_nil (total : Nat) (st : SessState) :
    topupProcess total [] st = st := rfl

theorem topupProcess_cons (total : Nat) (q : Question) (rest : List Question)
    (st st' : SessState) (ok : Bool)
    (hA : appendUnique st { q with question_type := "multiple_choice" } = (st', ok)) :
    topupProcess total (q :: rest) st =
      if total ≤ st'.all_questions.length then st'
      else topupProcess total rest st' := by
  conv_lhs => rw [topupProcess]
  simp only []
  rw [hA]

/-! ## C2: fingerprint uniqueness of the session result -/

theorem appendUnique_empty (st : SessState) (q : Question) (h : fpOf q = "") :
    appendUnique st q = (st, false) := by
  unfold appendUnique
  rw [if_pos h]

theorem appendUnique_seen (st : SessState) (q : Question) (h0 : ¬ fpOf q = "")
    (h : fpOf q ∈ st.seen) : appendUnique st q = (st, false) := by
  unfold appendUnique
  rw [if_neg h0, if_pos h]

theorem appendUnique_fresh (st : SessState) (q : Question) (h0 : ¬ fpOf q = "")
    (h : fpOf q ∉ st.seen) :
    appendUnique st q =
      ({ st with all_questions := st.all_questions ++ [q],
                 seen := st.seen ++ [fpOf q] }, true) := by
  unfold appendUnique
  rw [if_neg h0, if_neg h]

/-- The deduplication invariant of a session state: accepted items have
pairwise distinct fingerprints, each recorded in the seen set. -/
structure StInv (st : SessState) : Prop where
  nodup : (st.all_questions.map fpOf).Nodup
  mem_seen : ∀ q ∈ st.all_questions, fpOf q ∈ st.seen

theorem StInv.init : StInv ⟨[], [], []⟩ := by
  constructor
  · simp
  · intro q hq
    simp at hq

theorem StInv.calls (h : StInv st) (c : List (String × Nat)) :
    StInv { st with calls := c } := ⟨h.nodup, h.mem_seen⟩

theorem StInv.append (h : StInv st) (q : Question) :
    StInv (appendUnique st q).1 := by
  by_cases h0 : fpOf q = ""
  · rw [appendUnique_empty st q h0]
    exact h
  · by_cases h1 : fpOf q ∈ st.seen
    · rw [appendUnique_seen st q h0 h1]
      exact h
    · rw [appendUnique_fresh st q h0 h1]
      constructor
      · show ((st.all_questions ++ [q]).map fpOf).Nodup
        rw [List.map_append]
        rw [List.nodup_append]
        refine ⟨h.nodup, by simp, ?_⟩
        intro x hx
        simp only [List.map_cons, List.map_nil, List.mem_singleton]
        intro hxq
        rcases List.mem_map.mp hx with ⟨q', hq', hfq⟩
        exact h1 (hxq ▸ hfq ▸ h.mem_seen q' hq')
      · intro q' hq'
        show fpOf q' ∈ st.seen ++ [fpOf q]
        rcases List.mem_append.mp hq' with h2 | h2
        · exact List.mem_append_left _ (h.mem_seen q' h2)
        · rw [List.mem_singleton.mp h2]
          exact List.mem_append_right _ (by simp)

theorem StInv.processBatch (expected : String) (target : Nat)
    (batch : List Question) :
    ∀ (st : SessState) (added : Nat), StInv st →
      StInv (CIFE.processBatch expected target batch st added).1 := by
  induction batch with
  | nil =>
    intro st added h
    rw [processBatch_nil]
    exact h
  | cons q rest ih =>
    intro st added h
    rcases hA : appendUnique st { q with question_type := expected } with ⟨st', ok⟩
    have h' : StInv st' := by
      have := h.append { q with question_type := expected }
      rw [hA] at this
      exact this
    rw [processBatch_cons expected target q rest st st' ok added hA]
    split
    · exact h'
    · exact ih st' _ h'

theorem StInv.genLoop (oracle : Oracle) (label expected : String)
    (target batchSize : Nat) :
    ∀ (fuel stagnant : Nat) (st : SessState), StInv st →
      StInv (CIFE.genLoop oracle label expected target batchSize fuel stagnant st) := by
  intro fuel
  induction fuel with
  | zero =>
    intro stagnant st h
    rw [genLoop_zero]
    exact h
  | succ fuel ih =>
    intro stagnant st h
    by_cases hdone : target ≤ countType st.all_questions expected
    · rw [genLoop_done oracle label expected target batchSize fuel stagnant st hdone]
      exact h
    · rcases hO : oracle st.calls.length expected
          (requestN batchSize (target - countType st.all_questions expected))
        with _ | batch
      · rw [genLoop_fail oracle label expected target batchSize fuel stagnant st hdone hO]
        exact ih stagnant _ (h.calls _)
      · rcases hP : CIFE.processBatch expected target batch
            { st with calls := st.calls ++
                [(label, requestN batchSize (target - countType st.all_questions expected))] } 0
          with ⟨st1, added⟩
        have h1 : StInv st1 := by
          have := StInv.processBatch expected target batch
            { st with calls := st.calls ++
                [(label, requestN batchSize (target - countType st.all_questions expected))] }
            0 (h.calls _)
          rw [hP] at this
          exact this
        rw [genLoop_batch oracle label expected target batchSize fuel stagnant st st1
          batch added hdone hO hP]
        by_cases hs : 2 ≤ (if added = 0 then stagnant + 1 else 0)
        · rw [if_pos hs]
          exact h1
        · rw [if_neg hs]
          exact ih _ st1 h1

theorem StInv.generateForType (oracle : Oracle) (label expected : String)
    (target batchSize : Nat) (st : SessState) (h : StInv st) :
    StInv (CIFE.generateForType oracle label expected target batchSize st) := by
  by_cases h0 : target = 0
  · subst h0
    rw [generateForType_zero]
    exact h
  · rw [generateForType_pos oracle label expected target batchSize st h0]
    exact StInv.genLoop oracle label expected target batchSize _ 0 st h

theorem StInv.topupProcess (total : Nat) (batch : List Question) :
    ∀ st : SessState, StInv st → StInv (CIFE.topupProcess total batch st) := by
  induction batch with
  | nil =>
    intro st h
    rw [topupProcess_nil]
    exact h
  | cons q rest ih =>
    intro st h
    rcases hA : appendUnique st { q with question_type := "multiple_choice" }
      with ⟨st', ok⟩
    have h' : StInv st' := by
      have := h.append { q with question_type := "multiple_choice" }
      rw [hA] at this
      exact this
    rw [topupProcess_cons total q rest st st' ok hA]
    split
    · exact h'
    · exact ih st' h'

theorem StInv.generateSession (oracle : Oracle) (mc tf sa batchSize : Nat) :
    StInv (CIFE.generateSession oracle mc tf sa batchSize) := by
  have h3 : StInv (sessionAfterLoops oracle mc tf sa batchSize) := by
    unfold sessionAfterLoops
    exact StInv.generateForType _ _ _ _ _ _
      (StInv.generateForType _ _ _ _ _ _
        (StInv.generateForType _ _ _ _ _ _ StInv.init))
  unfold CIFE.generateSession
  simp only []
  split
  · rcases hO : oracle (sessionAfterLoops oracle mc tf sa batchSize).calls.length
        "multiple_choice"
        (requestN batchSize
          (mc + tf + sa - (sessionAfterLoops oracle mc tf sa batchSize).all_questions.length))
      with _ | batch
    · exact h3.calls _
    · exact StInv.topupProcess _ batch _ (h3.calls _)
  · exact h3

/-- C2: no two items of the returned list share a fingerprint, and
`_append_unique` rejects (returning the state unchanged) any item whose
fingerprint is empty or already recorded. -/
theorem generateQuizBatched_unique (oracle : Oracle) (mc tf sa batchSize : Nat) :
    List.Pairwise (fun a b => fpOf a ≠ fpOf b)
      (generateQuizBatched oracle mc tf sa batchSize) ∧
    (∀ (st : SessState) (q : Question),
      fpOf q = "" ∨ fpOf q ∈ st.seen → appendUnique st q = (st, false)) := by
  constructor
  · have hinv := StInv.generateSession oracle mc tf sa batchSize
    have hnd := hinv.nodup
    unfold generateQuizBatched
    apply List.Pairwise.sublist (List.take_sublist _ _)
    exact List.pairwise_map.mp hnd
  · intro st q h
    by_cases h0 : fpOf q = ""
    · exact appendUnique_empty st q h0
    · rcases h with h | h
      · exact absurd h h0
      · exact appendUnique_seen st q h0 h

/-! ## Call-trace and per-type-count lemmas -/

theorem appendUnique_calls (st : SessState) (q : Question) :
    (appendUnique st q).1.calls = st.calls := by
  unfold appendUnique
  simp only []
  split_ifs <;> rfl

theorem appendUnique_questions_cases (st : SessState) (q : Question) :
    (appendUnique st q).1.all_questions = st.all_questions ∨
    (appendUnique st q).1.all_questions = st.all_questions ++ [q] := by
  unfold appendUnique
  simp only []
  split_ifs <;> simp

theorem countType_append (l1 l2 : List Question) (ty : String) :
    countType (l1 ++ l2) ty = countType l1 ty + countType l2 ty :=
  List.countP_append _ _ _

theorem countType_singleton (q : Question) (ty : String) :
    countType [q] ty = if q.question_type == ty then 1 else 0 := by
  unfold countType
  rw [List.countP_cons]
  simp [List.countP_nil]

theorem processBatch_calls (expected : String) (target : Nat)
    (batch : List Question) :
    ∀ (st : SessState) (added : Nat),
      (processBatch expected target batch st added).1.calls = st.calls := by
  induction batch with
  | nil =>
    intro st added
    rw [processBatch_nil]
  | cons q rest ih =>
    intro st added
    rcases hA : appendUnique st { q with question_type := expected } with ⟨st', ok⟩
    have hc : st'.calls = st.calls := by
      have := appendUnique_calls st { q with question_type := expected }
      rw [hA] at this
      exact this
    rw [processBatch_cons expected target q rest st st' ok added hA]
    split
    · exact hc
    · rw [ih st' _]
      exact hc

theorem processBatch_count_le (expected : String) (target : Nat)
    (batch : List Question) :
    ∀ (st : SessState) (added : Nat),
      countType st.all_questions expected < target →
      countType (processBatch expected target batch st added).1.all_questions expected ≤
        target := by
  induction batch with
  | nil =>
    intro st added h
    rw [processBatch_nil]
    exact Nat.le_of_lt h
  | cons q rest ih =>
    intro st added h
    rcases hA : appendUnique st { q with question_type := expected } with ⟨st', ok⟩
    have hcases := appendUnique_questions_cases st { q with question_type := expected }
    rw [hA] at hcases
    replace hcases : st'.all_questions = st.all_questions ∨
        st'.all_questions = st.all_questions ++ [{ q with question_type := expected }] :=
      hcases
    have hle : countType st'.all_questions expected ≤
        countType st.all_questions expected + 1 := by
      rcases hcases with hc | hc <;> rw [hc]
      · omega
      · rw [countType_append, countType_singleton]
        split <;> omega
    rw [processBatch_cons expected target q rest st st' ok added hA]
    split
    · show countType st'.all_questions expected ≤ target
      omega
    · rename_i hnot
      exact ih st' _ (by omega)

theorem processBatch_count_other (expected ty : String) (target : Nat)
    (batch : List Question) (hne : ty ≠ expected) :
    ∀ (st : SessState) (added : Nat),
      countType (processBatch expected target batch st added).1.all_questions ty =
        countType st.all_questions ty := by
  induction batch with
  | nil =>
    intro st added
    rw [processBatch_nil]
  | cons q rest ih =>
    intro st added
    rcases hA : appendUnique st { q with question_type := expected } with ⟨st', ok⟩
    have hcases := appendUnique_questions_cases st { q with question_type := expected }
    rw [hA] at hcases
    replace hcases : st'.all_questions = st.all_questions ∨
        st'.all_questions = st.all_questions ++ [{ q with question_type := expected }] :=
      hcases
    have heq : countType st'.all_questions ty = countType st.all_questions ty := by
      rcases hcases with hc | hc <;> rw [hc]
      · rw [countType_append, countType_singleton]
        have hb : ¬ (({ q with question_type := expected } : Question).question_type == ty) = true := by
          simp only [beq_iff_eq]
          intro hx
          exact hne (hx ▸ rfl)
        rw [if_neg hb]
        omega
    rw [processBatch_cons expected target q rest st st' ok added hA]
    split
    · exact heq
    · rw [ih st' _]
      exact heq

theorem genLoop_count_le (oracle : Oracle) (label expected : String)
    (target batchSize : Nat) :
    ∀ (fuel stagnant : Nat) (st : SessState),
      countType st.all_questions expected ≤ target →
      countType (genLoop oracle label expected target batchSize fuel stagnant
        st).all_questions expected ≤ target := by
  intro fuel
  induction fuel with
  | zero =>
    intro stagnant st h
    rw [genLoop_zero]
    exact h
  | succ fuel ih =>
    intro stagnant st h
    by_cases hdone : target ≤ countType st.all_questions expected
    · rw [genLoop_done oracle label expected target batchSize fuel stagnant st hdone]
      exact h
    · rcases hO : oracle st.calls.length expected
          (requestN batchSize (target - countType st.all_questions expected))
        with _ | batch
      · rw [genLoop_fail oracle label expected target batchSize fuel stagnant st hdone hO]
        exact ih stagnant _ h
      · rcases hP : processBatch expected target batch
            { st with calls := st.calls ++
                [(label, requestN batchSize (target - countType st.all_questions expected))] } 0
          with ⟨st1, added⟩
        have h1 : countType st1.all_questions expected ≤ target := by
          have := processBatch_count_le expected target batch
            { st with calls := st.calls ++
                [(label, requestN batchSize (target - countType st.all_questions expected))] }
            0 (by show countType st.all_questions expected < target
                  omega)
          rw [hP] at this
          exact this
        rw [genLoop_batch oracle label expected target batchSize fuel stagnant st st1
          batch added hdone hO hP]
        by_cases hs : 2 ≤ (if added = 0 then stagnant + 1 else 0)
        · rw [if_pos hs]
          exact h1
        · rw [if_neg hs]
          exact ih _ st1 h1

theorem genLoop_count_other (oracle : Oracle) (label expected ty : String)
    (target batchSize : Nat) (hne : ty ≠ expected) :
    ∀ (fuel stagnant : Nat) (st : SessState),
      countType (genLoop oracle label expected target batchSize fuel stagnant
        st).all_questions ty = countType st.all_questions ty := by
  intro fuel
  induction fuel with
  | zero =>
    intro stagnant st
    rw [genLoop_zero]
  | succ fuel ih =>
    intro stagnant st
    by_cases hdone : target ≤ countType st.all_questions expected
    · rw [genLoop_done oracle label expected target batchSize fuel stagnant st hdone]
    · rcases hO : oracle st.calls.length expected
          (requestN batchSize (target - countType st.all_questions expected))
        with _ | batch
      · rw [genLoop_fail oracle label expected target batchSize fuel stagnant st hdone hO]
        exact ih stagnant _
      · rcases hP : processBatch expected target batch
            { st with calls := st.calls ++
                [(label, requestN batchSize (target - countType st.all_questions expected))] } 0
          with ⟨st1, added⟩
        have h1 : countType st1.all_questions ty = countType st.all_questions ty := by
          have := processBatch_count_other expected ty target batch hne
            { st with calls := st.calls ++
                [(label, requestN batchSize (target - countType st.all_questions expected))] } 0
          rw [hP] at this
          exact this
        rw [genLoop_batch oracle label expected target batchSize fuel stagnant st st1
          batch added hdone hO hP]
        by_cases hs : 2 ≤ (if added = 0 then stagnant + 1 else 0)
        · rw [if_pos hs]
          exact h1
        · rw [if_neg hs]
          rw [ih _ st1]
          exact h1

theorem generateForType_count_le (oracle : Oracle) (label expected : String)
    (target batchSize : Nat) (st : SessState)
    (h : countType st.all_questions expected ≤ target) :
    countType (generateForType oracle label expected target batchSize
      st).all_questions expected ≤ target := by
  by_cases h0 : target = 0
  · subst h0
    rw [generateForType_zero]
    exact h
  · rw [generateForType_pos oracle label expected target batchSize st h0]
    exact genLoop_count_le oracle label expected target batchSize _ 0 st h

theorem generateForType_count_other (oracle : Oracle) (label expected ty : String)
    (target batchSize : Nat) (st : SessState) (hne : ty ≠ expected) :
    countType (generateForType oracle label expected target batchSize
      st).all_questions ty = countType st.all_questions ty := by
  by_cases h0 : target = 0
  · subst h0
    rw [generateForType_zero]
  · rw [generateForType_pos oracle label expected target batchSize st h0]
    exact genLoop_count_other oracle label expected ty target batchSize hne _ 0 st

theorem topupProcess_calls (total : Nat) (batch : List Question) :
    ∀ st : SessState, (topupProcess total batch st).calls = st.calls := by
  induction batch with
  | nil =>
    intro st
    rw [topupProcess_nil]
  | cons q rest ih =>
    intro st
    rcases hA : appendUnique st { q with question_type := "multiple_choice" }
      with ⟨st', ok⟩
    have hc : st'.calls = st.calls := by
      have := appendUnique_calls st { q with question_type := "multiple_choice" }
      rw [hA] at this
      exact this
    rw [topupProcess_cons total q rest st st' ok hA]
    split
    · exact hc
    · rw [ih st']
      exact hc

theorem topupProcess_count_other (total : Nat) (ty : String)
    (hne : ty ≠ "multiple_choice") (batch : List Question) :
    ∀ st : SessState,
      countType (topupProcess total batch st).all_questions ty =
        countType st.all_questions ty := by
  induction batch with
  | nil =>
    intro st
    rw [topupProcess_nil]
  | cons q rest ih =>
    intro st
    rcases hA : appendUnique st { q with question_type := "multiple_choice" }
      with ⟨st', ok⟩
    have hcases := appendUnique_questions_cases st
      { q with question_type := "multiple_choice" }
    rw [hA] at hcases
    replace hcases : st'.all_questions = st.all_questions ∨
        st'.all_questions = st.all_questions ++ [{ q with question_type := "multiple_choice" }] :=
      hcases
    have heq : countType st'.all_questions ty = countType st.all_questions ty := by
      rcases hcases with hc | hc <;> rw [hc]
      · rw [countType_append, countType_singleton]
        have hb : ¬ (({ q with question_type := "multiple_choice" } : Question).question_type == ty) = true := by
          simp only [beq_iff_eq]
          intro hx
          exact hne (hx ▸ rfl)
        rw [if_neg hb]
        omega
    rw [topupProcess_cons total q rest st st' ok hA]
    split
    · exact heq
    · rw [ih st']
      exact heq

theorem countLabel_append (a b : List (String × Nat)) (lab : String) :
    countLabel (a ++ b) lab = countLabel a lab + countLabel b lab :=
  List.countP_append _ _ _

theorem countLabel_all_ne (l : List (String × Nat)) (lab : String)
    (h : ∀ e ∈ l, ¬ e.1 = lab) : countLabel l lab = 0 := by
  unfold countLabel
  rw [List.countP_eq_zero]
  intro e he
  simp only [beq_iff_eq]
  exact h e he

theorem genLoop_calls (oracle : Oracle) (label expected : String)
    (target batchSize : Nat) :
    ∀ (fuel stagnant : Nat) (st : SessState),
      ∃ l, (genLoop oracle label expected target batchSize fuel stagnant st).calls =
        st.calls ++ l ∧ ∀ e ∈ l, e.1 = label := by
  intro fuel
  induction fuel with
  | zero =>
    intro stagnant st
    rw [genLoop_zero]
    exact ⟨[], by simp, by simp⟩
  | succ fuel ih =>
    intro stagnant st
    by_cases hdone : target ≤ countType st.all_questions expected
    · rw [genLoop_done oracle label expected target batchSize fuel stagnant st hdone]
      exact ⟨[], by simp, by simp⟩
    · rcases hO : oracle st.calls.length expected
          (requestN batchSize (target - countType st.all_questions expected))
        with _ | batch
      · rw [genLoop_fail oracle label expected target batchSize fuel stagnant st hdone hO]
        rcases ih stagnant { st with calls := st.calls ++
            [(label, requestN batchSize (target - countType st.all_questions expected))] }
          with ⟨l, hl, hlab⟩
        refine ⟨(label, requestN batchSize (target - countType st.all_questions expected)) :: l, ?_, ?_⟩
        · rw [hl]
          simp
        · intro e he
          rcases List.mem_cons.mp he with he | he
          · rw [he]
          · exact hlab e he
      · rcases hP : processBatch expected target batch
            { st with calls := st.calls ++
                [(label, requestN batchSize (target - countType st.all_questions expected))] } 0
          with ⟨st1, added⟩
        have hc1 : st1.calls = st.calls ++
            [(label, requestN batchSize (target - countType st.all_questions expected))] := by
          have := processBatch_calls expected target batch
            { st with calls := st.calls ++
                [(label, requestN batchSize (target - countType st.all_questions expected))] } 0
          rw [hP] at this
          exact this
        rw [genLoop_batch oracle label expected target batchSize fuel stagnant st st1
          batch added hdone hO hP]
        by_cases hs : 2 ≤ (if added = 0 then stagnant + 1 else 0)
        · rw [if_pos hs]
          refine ⟨[(label, requestN batchSize (target - countType st.all_questions expected))],
            hc1, ?_⟩
          intro e he
          rcases List.mem_singleton.mp he with rfl
          rfl
        · rw [if_neg hs]
          rcases ih (if added = 0 then stagnant + 1 else 0) st1 with ⟨l, hl, hlab⟩
          refine ⟨(label, requestN batchSize (target - countType st.all_questions expected)) :: l, ?_, ?_⟩
          · rw [hl, hc1]
            simp
          · intro e he
            rcases List.mem_cons.mp he with he | he
            · rw [he]
            · exact hlab e he

theorem generateForType_calls (oracle : Oracle) (label expected : String)
    (target batchSize : Nat) (st : SessState) :
    ∃ l, (generateForType oracle label expected target batchSize st).calls =
      st.calls ++ l ∧ ∀ e ∈ l, e.1 = label := by
  by_cases h0 : target = 0
  · subst h0
    rw [generateForType_zero]
    exact ⟨[], by simp, by simp⟩
  · rw [generateForType_pos oracle label expected target batchSize st h0]
    exact genLoop_calls oracle label expected target batchSize _ 0 st

theorem sessionAfterLoops_labels (oracle : Oracle) (mc tf sa batchSize : Nat) :
    ∀ e ∈ (sessionAfterLoops oracle mc tf sa batchSize).calls,
      e.1 = "mc" ∨ e.1 = "tf" ∨ e.1 = "sa" := by
  unfold sessionAfterLoops
  rcases generateForType_calls oracle "mc" "multiple_choice" mc batchSize ⟨[], [], []⟩
    with ⟨l1, h1, hl1⟩
  rcases generateForType_calls oracle "tf" "true_false" tf batchSize
    (generateForType oracle "mc" "multiple_choice" mc batchSize ⟨[], [], []⟩)
    with ⟨l2, h2, hl2⟩
  rcases generateForType_calls oracle "sa" "short_answer" sa batchSize
    (generateForType oracle "tf" "true_false" tf batchSize
      (generateForType oracle "mc" "multiple_choice" mc batchSize ⟨[], [], []⟩))
    with ⟨l3, h3, hl3⟩
  intro e he
  rw [h3, h2, h1] at he
  simp only [List.nil_append, List.mem_append] at he
  rcases he with (he | he) | he
  · exact Or.inl (hl1 e he)
  · exact Or.inr (Or.inl (hl2 e he))
  · exact Or.inr (Or.inr (hl3 e he))

theorem sessionAfterLoops_topup_count (oracle : Oracle) (mc tf sa batchSize : Nat) :
    countLabel (sessionAfterLoops oracle mc tf sa batchSize).calls "topup" = 0 := by
  apply countLabel_all_ne
  intro e he
  rcases sessionAfterLoops_labels oracle mc tf sa batchSize e he with h | h | h <;>
    rw [h] <;> decide

/-- C8: when the three per-category loops leave the session short of the
total request, exactly one oracle call labelled as the top-up pass is
made (regardless of that call's outcome); otherwise none is made. -/
theorem topup_called_exactly_once (oracle : Oracle) (mc tf sa batchSize : Nat) :
    ((sessionAfterLoops oracle mc tf sa batchSize).all_questions.length < mc + tf + sa →
      countLabel (generateSession oracle mc tf sa batchSize).calls "topup" = 1) ∧
    (mc + tf + sa ≤ (sessionAfterLoops oracle mc tf sa batchSize).all_questions.length →
      countLabel (generateSession oracle mc tf sa batchSize).calls "topup" = 0) := by
  have h0 := sessionAfterLoops_topup_count oracle mc tf sa batchSize
  unfold generateSession
  simp only []
  constructor
  · intro h
    rw [if_pos h]
    rcases hO : oracle (sessionAfterLoops oracle mc tf sa batchSize).calls.length
        "multiple_choice"
        (requestN batchSize
          (mc + tf + sa - (sessionAfterLoops oracle mc tf sa batchSize).all_questions.length))
      with _ | batch
    · show countLabel ((sessionAfterLoops oracle mc tf sa batchSize).calls ++
        [("topup", requestN batchSize
          (mc + tf + sa - (sessionAfterLoops oracle mc tf sa batchSize).all_questions.length))])
        "topup" = 1
      rw [countLabel_append, h0]
      rfl
    · rw [topupProcess_calls]
      show countLabel ((sessionAfterLoops oracle mc tf sa batchSize).calls ++
        [("topup", requestN batchSize
          (mc + tf + sa - (sessionAfterLoops oracle mc tf sa batchSize).all_questions.length))])
        "topup" = 1
      rw [countLabel_append, h0]
      rfl
  · intro h
    rw [if_neg (by omega)]
    exact h0

/-! ## C1: per-category quota bounds -/

theorem generateSession_count_other (oracle : Oracle) (mc tf sa batchSize : Nat)
    (ty : String) (hne : ty ≠ "multiple_choice") :
    countType (generateSession oracle mc tf sa batchSize).all_questions ty =
      countType (sessionAfterLoops oracle mc tf sa batchSize).all_questions ty := by
  unfold generateSession
  simp only []
  split
  · rcases hO : oracle (sessionAfterLoops oracle mc tf sa batchSize).calls.length
        "multiple_choice"
        (requestN batchSize
          (mc + tf + sa - (sessionAfterLoops oracle mc tf sa batchSize).all_questions.length))
      with _ | batch
    · rfl
    · rw [topupProcess_count_other _ _ hne]
  · rfl

theorem generateSession_no_topup (oracle : Oracle) (mc tf sa batchSize : Nat)
    (h : mc + tf + sa ≤ (sessionAfterLoops oracle mc tf sa batchSize).all_questions.length) :
    generateSession oracle mc tf sa batchSize =
      sessionAfterLoops oracle mc tf sa batchSize := by
  unfold generateSession
  simp only []
  rw [if_neg (by omega)]

theorem sessionAfterLoops_count_mc (oracle : Oracle) (mc tf sa batchSize : Nat) :
    countType (sessionAfterLoops oracle mc tf sa batchSize).all_questions
      "multiple_choice" ≤ mc := by
  unfold sessionAfterLoops
  rw [generateForType_count_other oracle "sa" "short_answer" "multiple_choice" sa batchSize _
    (by decide)]
  rw [generateForType_count_other oracle "tf" "true_false" "multiple_choice" tf batchSize _
    (by decide)]
  exact generateForType_count_le oracle "mc" "multiple_choice" mc batchSize _
    (by exact Nat.zero_le mc)

theorem sessionAfterLoops_count_tf (oracle : Oracle) (mc tf sa batchSize : Nat) :
    countType (sessionAfterLoops oracle mc tf sa batchSize).all_questions
      "true_false" ≤ tf := by
  unfold sessionAfterLoops
  rw [generateForType_count_other oracle "sa" "short_answer" "true_false" sa batchSize _
    (by decide)]
  apply generateForType_count_le
  rw [generateForType_count_other oracle "mc" "multiple_choice" "true_false" mc batchSize _
    (by decide)]
  exact Nat.zero_le tf

theorem sessionAfterLoops_count_sa (oracle : Oracle) (mc tf sa batchSize : Nat) :
    countType (sessionAfterLoops oracle mc tf sa batchSize).all_questions
      "short_answer" ≤ sa := by
  unfold sessionAfterLoops
  apply generateForType_count_le
  rw [generateForType_count_other oracle "tf" "true_false" "short_answer" tf batchSize _
    (by decide)]
  rw [generateForType_count_other oracle "mc" "multiple_choice" "short_answer" mc batchSize _
    (by decide)]
  exact Nat.zero_le sa

/-- C1 amended: the true_false and short_answer categories never exceed
their targets in the returned list, and the total never exceeds the sum
of the targets; multiple_choice also respects its target whenever the
per-category loops already met the overall total (so that no top-up call
happens) — the final top-up pass, which forces its filler items to
multiple_choice, is the only way a category can overshoot. -/
theorem session_type_bounds (oracle : Oracle) (mc tf sa batchSize : Nat) :
    countType (generateQuizBatched oracle mc tf sa batchSize) "true_false" ≤ tf ∧
    countType (generateQuizBatched oracle mc tf sa batchSize) "short_answer" ≤ sa ∧
    (generateQuizBatched oracle mc tf sa batchSize).length ≤ mc + tf + sa ∧
    (mc + tf + sa ≤ (sessionAfterLoops oracle mc tf sa batchSize).all_questions.length →
      countType (generateQuizBatched oracle mc tf sa batchSize) "multiple_choice" ≤ mc) := by
  have htake : ∀ ty, countType (generateQuizBatched oracle mc tf sa batchSize) ty ≤
      countType (generateSession oracle mc tf sa batchSize).all_questions ty := by
    intro ty
    exact List.Sublist.countP_le _ (List.take_sublist _ _)
  refine ⟨?_, ?_, ?_, ?_⟩
  · calc countType (generateQuizBatched oracle mc tf sa batchSize) "true_false"
        ≤ countType (generateSession oracle mc tf sa batchSize).all_questions
          "true_false" := htake _
    _ = countType (sessionAfterLoops oracle mc tf sa batchSize).all_questions
          "true_false" := generateSession_count_other oracle mc tf sa batchSize _ (by decide)
    _ ≤ tf := sessionAfterLoops_count_tf oracle mc tf sa batchSize
  · calc countType (generateQuizBatched oracle mc tf sa batchSize) "short_answer"
        ≤ countType (generateSession oracle mc tf sa batchSize).all_questions
          "short_answer" := htake _
    _ = countType (sessionAfterLoops oracle mc tf sa batchSize).all_questions
          "short_answer" := generateSession_count_other oracle mc tf sa batchSize _ (by decide)
    _ ≤ sa := sessionAfterLoops_count_sa oracle mc tf sa batchSize
  · unfold generateQuizBatched
    rw [List.length_take]
    omega
  · intro h
    calc countType (generateQuizBatched oracle mc tf sa batchSize) "multiple_choice"
        ≤ countType (generateSession oracle mc tf sa batchSize).all_questions
          "multiple_choice" := htake _
    _ = countType (sessionAfterLoops oracle mc tf sa batchSize).all_questions
          "multiple_choice" := by rw [generateSession_no_topup oracle mc tf sa batchSize h]
    _ ≤ mc := sessionAfterLoops_count_mc oracle mc tf sa batchSize

/-- A raw record the oracle can realistically return for the C1
counterexample's first call. -/
def c1RawA : RawQuestion :=
  { question_text := some "What is an atom?"
    question_type := some "multiple_choice"
    options := some ["matter", "energy"]
    correct_answer := some "matter"
    correct_answer_index := none
    explanation := none
    misconception_tag := none
    pairs := none }

def c1ItemA : Question :=
  { question_text := "What is an atom?"
    question_type := "multiple_choice"
    options := ["matter", "energy", "", ""]
    correct_answer_index := 0
    correct_answer := "matter"
    explanation := "Great job reviewing this concept!"
    misconception_tag := "General concept check"
    pairs := none }

def c1RawB : RawQuestion :=
  { question_text := some "What is a molecule?"
    question_type := some "multiple_choice"
    options := some ["bonded atoms", "a cell"]
    correct_answer := some "bonded atoms"
    correct_answer_index := none
    explanation := none
    misconception_tag := none
    pairs := none }

def c1ItemB : Question :=
  { question_text := "What is a molecule?"
    question_type := "multiple_choice"
    options := ["bonded atoms", "a cell", "", ""]
    correct_answer_index := 0
    correct_answer := "bonded atoms"
    explanation := "Great job reviewing this concept!"
    misconception_tag := "General concept check"
    pairs := none }

/-- Both counterexample items are images of the normalizer, so an
oracle returning them is realizable. -/
theorem c1Items_realizable :
    validateQuestion c1RawA = some c1ItemA ∧ validateQuestion c1RawB = some c1ItemB := by
  constructor <;> decide

/-- The C1 counterexample oracle: call 0 (the multiple_choice loop)
returns one valid item; the true_false loop's calls return empty lists
until stagnation; the top-up call (index 3) returns one more item. -/
def c1Oracle : Oracle := fun i _ _ =>
  if i = 0 then some [c1ItemA]
  else if i = 3 then some [c1ItemB]
  else some []

/-- C1 counterexample: with quotas mc = 1, tf = 1, sa = 0 and batch
size 15, the top-up pass forces its filler item to multiple_choice, so
the trimmed result contains two multiple_choice items — more than the
multiple_choice target of one. -/
theorem session_quota_c1_counterexample :
    countType (generateQuizBatched c1Oracle 1 1 0 15) "multiple_choice" = 2 ∧
    ¬ countType (generateQuizBatched c1Oracle 1 1 0 15) "multiple_choice" ≤ 1 := by
  constructor <;> decide

/-! ## C3: oracle failures and the stagnation counter -/

/-- The always-failing oracle (every call raises). -/
def c3FailOracle : Oracle := fun _ _ _ => none

/-- C3 counterexample: with target mc = 1 and batch size 15, an oracle
that raises on every call drives the multiple_choice loop through all
max(6, ceil(1/15)+4) = 6 attempts — not the 2 calls that a
stagnation-limit termination would produce. -/
theorem genLoop_stagnation_c3_counterexample :
    countLabel (generateSession c3FailOracle 1 0 0 15).calls "mc" = 6 ∧
    ¬ countLabel (generateSession c3FailOracle 1 0 0 15).calls "mc" = 2 := by
  constructor <;> decide

theorem countLabel_replicate (n k : Nat) (lab : String) :
    countLabel (List.replicate n (lab, k)) lab = n := by
  unfold countLabel
  induction n with
  | zero => rfl
  | succ n ih =>
    rw [List.replicate_succ, List.countP_cons]
    simp only [beq_self_eq_true, if_pos]
    omega

theorem countLabel_replicate_ne (n k : Nat) (lab lab' : String) (h : ¬ lab = lab') :
    countLabel (List.replicate n (lab, k)) lab' = 0 := by
  apply countLabel_all_ne
  intro e he
  rw [List.eq_of_mem_replicate he]
  exact h

theorem genLoop_allfail (oracle : Oracle) (hO : ∀ i ty n, oracle i ty n = none)
    (label expected : String) (target batchSize : Nat) :
    ∀ (fuel stagnant : Nat) (a : List Question) (s : List String)
      (c : List (String × Nat)),
      countType a expected < target →
      genLoop oracle label expected target batchSize fuel stagnant ⟨a, s, c⟩ =
        ⟨a, s, c ++ List.replicate fuel
          (label, requestN batchSize (target - countType a expected))⟩ := by
  intro fuel
  induction fuel with
  | zero =>
    intro stagnant a s c h
    rw [genLoop_zero]
    simp
  | succ fuel ih =>
    intro stagnant a s c h
    rw [genLoop_fail oracle label expected target batchSize fuel stagnant ⟨a, s, c⟩
      (by show ¬ target ≤ countType a expected
          omega)
      (hO _ _ _)]
    show genLoop oracle label expected target batchSize fuel stagnant
      ⟨a, s, c ++ [(label, requestN batchSize (target - countType a expected))]⟩ = _
    rw [ih stagnant a s (c ++ [(label, requestN batchSize (target - countType a expected))]) h]
    rw [List.append_assoc, List.singleton_append, ← List.replicate_succ]

theorem generateForType_allfail (oracle : Oracle)
    (hO : ∀ i ty n, oracle i ty n = none) (label expected : String)
    (target batchSize : Nat) (a : List Question) (s : List String)
    (c : List (String × Nat)) (hcount : countType a expected = 0) :
    generateForType oracle label expected target batchSize ⟨a, s, c⟩ =
      ⟨a, s, c ++
        (if target = 0 then []
         else List.replicate (maxAttempts target batchSize)
           (label, requestN batchSize target))⟩ := by
  by_cases h0 : target = 0
  · subst h0
    rw [generateForType_zero, if_pos rfl]
    simp
  · rw [generateForType_pos oracle label expected target batchSize ⟨a, s, c⟩ h0]
    rw [genLoop_allfail oracle hO label expected target batchSize _ 0 a s c
      (by show countType a expected < target
          omega)]
    rw [if_neg h0]
    show (⟨a, s, c ++ List.replicate (maxAttempts target batchSize)
      (label, requestN batchSize (target - countType a expected))⟩ : SessState) = _
    rw [hcount, Nat.sub_zero]

theorem countLabel_replicate_if (t B : Nat) (lab : String) :
    countLabel (if t = 0 then []
      else List.replicate (maxAttempts t B) (lab, requestN B t)) lab =
      (if t = 0 then 0 else maxAttempts t B) := by
  split
  · rfl
  · exact countLabel_replicate _ _ _

theorem countLabel_replicate_if_ne (t B : Nat) (lab lab' : String)
    (h : ¬ lab = lab') :
    countLabel (if t = 0 then []
      else List.replicate (maxAttempts t B) (lab, requestN B t)) lab' = 0 := by
  split
  · rfl
  · exact countLabel_replicate_ne _ _ _ _ h

theorem countLabel_topup_ne (c : Prop) [Decidable c] (n : Nat) (lab : String)
    (h : ¬ "topup" = lab) :
    countLabel (if c then [("topup", n)] else []) lab = 0 := by
  split
  · apply countLabel_all_ne
    intro e he
    rw [List.mem_singleton.mp he]
    exact h
  · rfl

/-- C3 amended: a round whose oracle call raises consumes one attempt
and re-enters the loop with the stagnation counter and the accepted
list unchanged (the Python `continue` skips the stagnation update), so
consecutive failures terminate a category's loop only through the
attempt limit: an oracle failing on every call makes exactly
max(6, ceil(target/batch_size)+4) calls for each nonempty category and
returns no items. -/
theorem oracle_failure_counts_attempts_only :
    (∀ (oracle : Oracle) (label expected : String)
       (target batchSize fuel stagnant : Nat) (st : SessState),
      ¬ target ≤ countType st.all_questions expected →
      oracle st.calls.length expected
        (requestN batchSize (target - countType st.all_questions expected)) = none →
      genLoop oracle label expected target batchSize (fuel + 1) stagnant st =
        genLoop oracle label expected target batchSize fuel stagnant
          { st with calls := st.calls ++
              [(label, requestN batchSize
                  (target - countType st.all_questions expected))] }) ∧
    (∀ oracle : Oracle, (∀ i ty n, oracle i ty n = none) →
      ∀ mc tf sa batchSize : Nat,
        generateQuizBatched oracle mc tf sa batchSize = [] ∧
        countLabel (generateSession oracle mc tf sa batchSize).calls "mc" =
          (if mc = 0 then 0 else maxAttempts mc batchSize) ∧
        countLabel (generateSession oracle mc tf sa batchSize).calls "tf" =
          (if tf = 0 then 0 else maxAttempts tf batchSize) ∧
        countLabel (generateSession oracle mc tf sa batchSize).calls "sa" =
          (if sa = 0 then 0 else maxAttempts sa batchSize)) := by
  constructor
  · intro oracle label expected target batchSize fuel stagnant st h hO
    exact genLoop_fail oracle label expected target batchSize fuel stagnant st h hO
  · intro oracle hO mc tf sa batchSize
    have h3 : sessionAfterLoops oracle mc tf sa batchSize =
        ⟨[], [],
          (([] ++ (if mc = 0 then []
              else List.replicate (maxAttempts mc batchSize)
                ("mc", requestN batchSize mc))) ++
            (if tf = 0 then []
              else List.replicate (maxAttempts tf batchSize)
                ("tf", requestN batchSize tf))) ++
            (if sa = 0 then []
              else List.replicate (maxAttempts sa batchSize)
                ("sa", requestN batchSize sa))⟩ := by
      unfold sessionAfterLoops
      simp only []
      rw [generateForType_allfail oracle hO "mc" "multiple_choice" mc batchSize [] [] [] rfl]
      rw [generateForType_allfail oracle hO "tf" "true_false" tf batchSize [] [] _ rfl]
      rw [generateForType_allfail oracle hO "sa" "short_answer" sa batchSize [] [] _ rfl]
    have hlen : (sessionAfterLoops oracle mc tf sa batchSize).all_questions = [] := by
      rw [h3]
    have hcount : ∀ lab, countLabel (generateSession oracle mc tf sa
        batchSize).calls lab =
        countLabel (sessionAfterLoops oracle mc tf sa batchSize).calls lab +
          countLabel (if (sessionAfterLoops oracle mc tf sa
                batchSize).all_questions.length < mc + tf + sa
            then [("topup", requestN batchSize (mc + tf + sa -
              (sessionAfterLoops oracle mc tf sa batchSize).all_questions.length))]
            else []) lab := by
      intro lab
      unfold generateSession
      simp only []
      by_cases hshort : (sessionAfterLoops oracle mc tf sa
          batchSize).all_questions.length < mc + tf + sa
      · rw [if_pos hshort, if_pos hshort, hO]
        exact countLabel_append _ _ _
      · rw [if_neg hshort, if_neg hshort]
        simp [countLabel]
    refine ⟨?_, ?_, ?_, ?_⟩
    · unfold generateQuizBatched
      have hq : (generateSession oracle mc tf sa batchSize).all_questions = [] := by
        unfold generateSession
        simp only []
        by_cases hshort : (sessionAfterLoops oracle mc tf sa
            batchSize).all_questions.length < mc + tf + sa
        · rw [if_pos hshort, hO]
          exact hlen
        · rw [if_neg hshort]
          exact hlen
      rw [hq, List.take_nil]
    all_goals rw [hcount, h3]
    all_goals simp only [List.nil_append, countLabel_append]
    · rw [countLabel_replicate_if mc batchSize "mc",
          countLabel_replicate_if_ne tf batchSize "tf" "mc" (by decide),
          countLabel_replicate_if_ne sa batchSize "sa" "mc" (by decide),
          countLabel_topup_ne _ _ "mc" (by decide)]
      simp
    · rw [countLabel_replicate_if_ne mc batchSize "mc" "tf" (by decide),
          countLabel_replicate_if tf batchSize "tf",
          countLabel_replicate_if_ne sa batchSize "sa" "tf" (by decide),
          countLabel_topup_ne _ _ "tf" (by decide)]
      simp
    · rw [countLabel_replicate_if_ne mc batchSize "mc" "sa" (by decide),
          countLabel_replicate_if_ne tf batchSize "tf" "sa" (by decide),
          countLabel_replicate_if sa batchSize "sa",
          countLabel_topup_ne _ _ "sa" (by decide)]
      simp

/-! ## C5: the exact-fulfillment case -/

/-- Forcing the expected type onto an item does not change its
fingerprint. -/
theorem fpOf_retype (q : Question) (ty : String) :
    fpOf { q with question_type := ty } = fpOf q := rfl

/-- Every fingerprint in the seen set originated from an oracle call
already recorded in the trace. -/
def SeenPast (items : Nat → String → Nat → List Question) (st : SessState) : Prop :=
  ∀ f ∈ st.seen, ∃ i ty n, i < st.calls.length ∧ f ∈ (items i ty n).map fpOf

theorem seenPast_calls (items : Nat → String → Nat → List Question)
    (st : SessState) (h : SeenPast items st) (e : String × Nat) :
    SeenPast items { st with calls := st.calls ++ [e] } := by
  intro f hf
  rcases h f hf with ⟨i, ty, n, hi, hmem⟩
  refine ⟨i, ty, n, ?_, hmem⟩
  show i < (st.calls ++ [e]).length
  rw [List.length_append]
  omega

/-- Processing a batch of fresh, nonempty, pairwise-distinct
fingerprints when the expected type still needs `target - cur` items:
exactly `min (target - cur) batch.length` items are accepted, the early
break firing exactly when the target is reached. -/
theorem processBatch_perfect (expected : String) (target : Nat)
    (batch : List Question) :
    ∀ (st : SessState) (added0 : Nat),
      (∀ q ∈ batch, fpOf q ∉ st.seen) →
      (∀ q ∈ batch, ¬ fpOf q = "") →
      (batch.map fpOf).Nodup →
      countType st.all_questions expected < target →
      (processBatch expected target batch st added0).2 =
          added0 + min (target - countType st.all_questions expected) batch.length ∧
      countType (processBatch expected target batch st added0).1.all_questions expected =
          countType st.all_questions expected +
            min (target - countType st.all_questions expected) batch.length ∧
      (processBatch expected target batch st added0).1.all_questions.length =
          st.all_questions.length +
            min (target - countType st.all_questions expected) batch.length ∧
      (∀ f ∈ (processBatch expected target batch st added0).1.seen,
        f ∈ st.seen ∨ f ∈ batch.map fpOf) := by
  induction batch with
  | nil =>
    intro st added0 hfresh hne hnd hcur
    rw [processBatch_nil]
    refine ⟨by simp, by simp, by simp, ?_⟩
    intro f hf
    exact Or.inl hf
  | cons q rest ih =>
    intro st added0 hfresh hne hnd hcur
    have hq_ne : ¬ fpOf { q with question_type := expected } = "" := by
      rw [fpOf_retype]
      exact hne q (List.mem_cons_self q rest)
    have hq_fresh : fpOf { q with question_type := expected } ∉ st.seen := by
      rw [fpOf_retype]
      exact hfresh q (List.mem_cons_self q rest)
    have hA := appendUnique_fresh st { q with question_type := expected } hq_ne hq_fresh
    have hcount' : countType (st.all_questions ++
        [{ q with question_type := expected }]) expected =
        countType st.all_questions expected + 1 := by
      rw [countType_append, countType_singleton]
      simp
    rw [processBatch_cons expected target q rest st _ true added0 hA]
    rw [if_pos rfl]
    by_cases hdone : target ≤ countType ({ st with
        all_questions := st.all_questions ++ [{ q with question_type := expected }],
        seen := st.seen ++ [fpOf { q with question_type := expected }]} :
          SessState).all_questions expected
    · -- the appended item reached the target: early break
      rw [if_pos hdone]
      replace hdone : target ≤ countType (st.all_questions ++
          [{ q with question_type := expected }]) expected := hdone
      have htarget : countType st.all_questions expected + 1 = target := by
        rw [hcount'] at hdone
        omega
      have hmin : min (target - countType st.all_questions expected)
          (q :: rest).length = 1 := by
        rw [List.length_cons]
        omega
      rw [hmin]
      refine ⟨by simp, ?_, ?_, ?_⟩
      · show countType (st.all_questions ++ [{ q with question_type := expected }])
          expected = _
        omega
      · show (st.all_questions ++ [{ q with question_type := expected }]).length = _
        rw [List.length_append]
        rfl
      · intro f hf
        replace hf : f ∈ st.seen ++ [fpOf { q with question_type := expected }] := hf
        rcases List.mem_append.mp hf with h | h
        · exact Or.inl h
        · right
          rw [List.mem_singleton.mp h, fpOf_retype]
          exact List.mem_map_of_mem fpOf (List.mem_cons_self q rest)
    · rw [if_neg hdone]
      replace hdone : ¬ target ≤ countType (st.all_questions ++
          [{ q with question_type := expected }]) expected := hdone
      have hcurlt : countType (st.all_questions ++
          [{ q with question_type := expected }]) expected < target := by omega
      have hfresh' : ∀ q2 ∈ rest, fpOf q2 ∉
          (st.seen ++ [fpOf { q with question_type := expected }]) := by
        intro q2 hq2 hmem
        rcases List.mem_append.mp hmem with h | h
        · exact hfresh q2 (List.mem_cons_of_mem q hq2) h
        · have heq : fpOf q2 = fpOf q := by
            rw [List.mem_singleton.mp h, fpOf_retype]
          rw [List.map_cons, List.nodup_cons] at hnd
          exact hnd.1 (heq ▸ List.mem_map_of_mem fpOf hq2)
      have hne' : ∀ q2 ∈ rest, ¬ fpOf q2 = "" :=
        fun q2 h2 => hne q2 (List.mem_cons_of_mem q h2)
      have hnd' : (rest.map fpOf).Nodup := by
        rw [List.map_cons, List.nodup_cons] at hnd
        exact hnd.2
      obtain ⟨ih1, ih2, ih3, ih4⟩ := ih
        { st with
          all_questions := st.all_questions ++ [{ q with question_type := expected }],
          seen := st.seen ++ [fpOf { q with question_type := expected }] }
        (added0 + 1) hfresh' hne' hnd' hcurlt
      refine ⟨?_, ?_, ?_, ?_⟩
      · rw [ih1]
        replace hcount' : countType ({ st with
            all_questions := st.all_questions ++ [{ q with question_type := expected }],
            seen := st.seen ++ [fpOf { q with question_type := expected }]} :
              SessState).all_questions expected =
            countType st.all_questions expected + 1 := hcount'
        rw [hcount', List.length_cons]
        omega
      · rw [ih2]
        replace hcount' : countType ({ st with
            all_questions := st.all_questions ++ [{ q with question_type := expected }],
            seen := st.seen ++ [fpOf { q with question_type := expected }]} :
              SessState).all_questions expected =
            countType st.all_questions expected + 1 := hcount'
        rw [hcount', List.length_cons]
        omega
      · rw [ih3]
        replace hcount' : countType ({ st with
            all_questions := st.all_questions ++ [{ q with question_type := expected }],
            seen := st.seen ++ [fpOf { q with question_type := expected }]} :
              SessState).all_questions expected =
            countType st.all_questions expected + 1 := hcount'
        have hlen2 : ({ st with
            all_questions := st.all_questions ++ [{ q with question_type := expected }],
            seen := st.seen ++ [fpOf { q with question_type := expected }]} :
              SessState).all_questions.length = st.all_questions.length + 1 := by
          show (st.all_questions ++ [{ q with question_type := expected }]).length = _
          rw [List.length_append]
          rfl
        rw [hlen2, hcount', List.length_cons]
        omega
      · intro f hf
        rcases ih4 f hf with h | h
        · replace h : f ∈ st.seen ++ [fpOf { q with question_type := expected }] := h
          rcases List.mem_append.mp h with h2 | h2
          · exact Or.inl h2
          · right
            rw [List.mem_singleton.mp h2, fpOf_retype]
            exact List.mem_map_of_mem fpOf (List.mem_cons_self q rest)
        · right
          rw [List.map_cons]
          exact List.mem_cons_of_mem _ h

theorem ceilDiv_zero_left (B : Nat) (hB : 1 ≤ B) : ceilDiv 0 B = 0 := by
  unfold ceilDiv
  exact Nat.div_eq_of_lt (by omega)

theorem ceilDiv_pos_of_pos (r B : Nat) (hB : 1 ≤ B) (hr : 1 ≤ r) :
    1 ≤ ceilDiv r B := by
  unfold ceilDiv
  have : B ≤ r + B - 1 := by omega
  exact Nat.le_div_iff_mul_le (by omega) |>.mpr (by omega)

theorem ceilDiv_eq_one (r B : Nat) (h1 : 1 ≤ r) (h2 : r ≤ B) : ceilDiv r B = 1 := by
  unfold ceilDiv
  have hlo : 1 * B ≤ r + B - 1 := by omega
  have hhi : r + B - 1 < 2 * B := by omega
  exact Nat.div_eq_of_lt_le hlo (by omega)

theorem ceilDiv_sub_self (r B : Nat) (hB : 1 ≤ B) (h : B < r) :
    ceilDiv r B = ceilDiv (r - B) B + 1 := by
  unfold ceilDiv
  have hnum : r + B - 1 = (r - B + B - 1) + B := by omega
  rw [hnum, Nat.add_div_right _ (by omega)]

theorem requestN_pos (B r : Nat) (hB : 1 ≤ B) (hr : 1 ≤ r) : 1 ≤ requestN B r := by
  unfold requestN
  have h1 : 1 ≤ r + overshootBuffer r := by omega
  omega

theorem requestN_le (B r : Nat) : requestN B r ≤ B := by
  unfold requestN
  omega

/-- The category retry loop under a perfect oracle: starting at or
below target with enough fuel, it reaches the target exactly, makes
exactly ceil(remaining / batch_size) calls, appends exactly the
shortfall, and keeps every seen fingerprint attributable to a recorded
call. -/
theorem genLoop_perfect (oracle : Oracle)
    (items : Nat → String → Nat → List Question)
    (hok : ∀ i ty n, oracle i ty n = some (items i ty n))
    (hlen : ∀ i ty n, (items i ty n).length = n)
    (hne : ∀ i ty n, ∀ q ∈ items i ty n, ¬ fpOf q = "")
    (hnodup : ∀ i ty n, ((items i ty n).map fpOf).Nodup)
    (hdisj : ∀ i j ty n ty' n', ¬ i = j →
      ∀ f, f ∈ (items i ty n).map fpOf → f ∉ (items j ty' n').map fpOf)
    (label expected : String) (target batchSize : Nat) (hB : 1 ≤ batchSize)
    (fuel : Nat) :
    ∀ (stagnant : Nat) (st : SessState),
      countType st.all_questions expected ≤ target →
      ceilDiv (target - countType st.all_questions expected) batchSize ≤ fuel →
      SeenPast items st →
      countType (genLoop oracle label expected target batchSize fuel stagnant
          st).all_questions expected = target ∧
      (genLoop oracle label expected target batchSize fuel stagnant st).calls.length =
        st.calls.length +
          ceilDiv (target - countType st.all_questions expected) batchSize ∧
      (genLoop oracle label expected target batchSize fuel stagnant
          st).all_questions.length =
        st.all_questions.length + (target - countType st.all_questions expected) ∧
      SeenPast items (genLoop oracle label expected target batchSize fuel stagnant st) := by
  induction fuel with
  | zero =>
    intro stagnant st hle hfuel hseen
    rw [genLoop_zero]
    have hr : target - countType st.all_questions expected = 0 := by
      by_contra hx
      have := ceilDiv_pos_of_pos (target - countType st.all_questions expected)
        batchSize hB (by omega)
      omega
    rw [hr, ceilDiv_zero_left batchSize hB]
    exact ⟨by omega, by omega, by omega, hseen⟩
  | succ fuel ih =>
    intro stagnant st hle hfuel hseen
    by_cases hdone : target ≤ countType st.all_questions expected
    · rw [genLoop_done oracle label expected target batchSize fuel stagnant st hdone]
      have hr : target - countType st.all_questions expected = 0 := by omega
      rw [hr, ceilDiv_zero_left batchSize hB]
      exact ⟨by omega, by omega, by omega, hseen⟩
    · -- an active round with a perfect batch
      have hOc : oracle st.calls.length expected
          (requestN batchSize (target - countType st.all_questions expected)) =
          some (items st.calls.length expected
            (requestN batchSize (target - countType st.all_questions expected))) :=
        hok _ _ _
      have hfresh : ∀ q ∈ items st.calls.length expected
          (requestN batchSize (target - countType st.all_questions expected)),
          fpOf q ∉ ({ st with calls := st.calls ++
            [(label, requestN batchSize
              (target - countType st.all_questions expected))] } : SessState).seen := by
        intro q hq hmem
        replace hmem : fpOf q ∈ st.seen := hmem
        rcases hseen (fpOf q) hmem with ⟨j, ty, n, hj, hf⟩
        exact hdisj j st.calls.length ty n expected
          (requestN batchSize (target - countType st.all_questions expected))
          (by omega) (fpOf q) hf (List.mem_map_of_mem fpOf hq)
      obtain ⟨hp1, hp2, hp3, hp4⟩ := processBatch_perfect expected target
        (items st.calls.length expected
          (requestN batchSize (target - countType st.all_questions expected)))
        { st with calls := st.calls ++
            [(label, requestN batchSize (target - countType st.all_questions expected))] }
        0 hfresh (hne _ _ _) (hnodup _ _ _)
        (by show countType st.all_questions expected < target
            omega)
      rcases hP : processBatch expected target
          (items st.calls.length expected
            (requestN batchSize (target - countType st.all_questions expected)))
          { st with calls := st.calls ++
              [(label, requestN batchSize (target - countType st.all_questions expected))] }
          0 with ⟨st1, added⟩
      rw [hP] at hp1 hp2 hp3 hp4
      replace hp1 : added = 0 + min (target - countType st.all_questions expected)
          (items st.calls.length expected
            (requestN batchSize (target - countType st.all_questions expected))).length :=
        hp1
      replace hp2 : countType st1.all_questions expected =
          countType st.all_questions expected +
            min (target - countType st.all_questions expected)
              (items st.calls.length expected
                (requestN batchSize (target - countType st.all_questions expected))).length :=
        hp2
      replace hp3 : st1.all_questions.length = st.all_questions.length +
          min (target - countType st.all_questions expected)
            (items st.calls.length expected
              (requestN batchSize (target - countType st.all_questions expected))).length :=
        hp3
      replace hp4 : ∀ f ∈ st1.seen, f ∈ st.seen ∨
          f ∈ (items st.calls.length expected
            (requestN batchSize (target - countType st.all_questions expected))).map fpOf :=
        hp4
      rw [hlen] at hp1 hp2 hp3
      have hc1 : st1.calls = st.calls ++
          [(label, requestN batchSize (target - countType st.all_questions expected))] := by
        have := processBatch_calls expected target
          (items st.calls.length expected
            (requestN batchSize (target - countType st.all_questions expected)))
          { st with calls := st.calls ++
              [(label, requestN batchSize (target - countType st.all_questions expected))] } 0
        rw [hP] at this
        exact this
      have hcl1 : st1.calls.length = st.calls.length + 1 := by
        rw [hc1, List.length_append]
        rfl
      have hrn_pos : 1 ≤ requestN batchSize (target - countType st.all_questions expected) :=
        requestN_pos batchSize _ hB (by omega)
      have hadded : 1 ≤ added := by
        rw [hp1]
        omega
      rw [genLoop_batch oracle label expected target batchSize fuel stagnant st st1
        _ added hdone hOc hP]
      rw [if_neg (show ¬ added = 0 by omega)]
      rw [if_neg (show ¬ 2 ≤ 0 by omega)]
      have hseen1 : SeenPast items st1 := by
        intro f hf
        rcases hp4 f hf with h | h
        · rcases hseen f h with ⟨j, ty, n, hj, hfj⟩
          exact ⟨j, ty, n, by omega, hfj⟩
        · exact ⟨st.calls.length, expected,
            requestN batchSize (target - countType st.all_questions expected),
            by omega, h⟩
      have hle1 : countType st1.all_questions expected ≤ target := by
        rw [hp2]
        omega
      have hrn_le : requestN batchSize (target - countType st.all_questions expected) ≤
          batchSize := requestN_le _ _
      have hfuel1 : ceilDiv (target - countType st1.all_questions expected)
          batchSize ≤ fuel := by
        rw [hp2]
        by_cases hcase : target - countType st.all_questions expected ≤
            requestN batchSize (target - countType st.all_questions expected)
        · have : target - (countType st.all_questions expected +
              min (target - countType st.all_questions expected)
                (requestN batchSize (target - countType st.all_questions expected))) = 0 := by
            omega
          rw [this, ceilDiv_zero_left batchSize hB]
          omega
        · -- the request was clipped to the batch ceiling
          have hclip : requestN batchSize (target - countType st.all_questions expected) =
              batchSize := by
            unfold requestN at hcase ⊢
            omega
          have hgt : batchSize < target - countType st.all_questions expected := by
            omega
          have hstep := ceilDiv_sub_self (target - countType st.all_questions expected)
            batchSize hB hgt
          have : target - (countType st.all_questions expected +
              min (target - countType st.all_questions expected)
                (requestN batchSize (target - countType st.all_questions expected))) =
              (target - countType st.all_questions expected) - batchSize := by
            rw [hclip]
            omega
          rw [this]
          omega
      obtain ⟨hq1, hq2, hq3, hq4⟩ := ih 0 st1 hle1 hfuel1 hseen1
      refine ⟨hq1, ?_, ?_, hq4⟩
      · rw [hq2, hcl1]
        by_cases hcase : target - countType st.all_questions expected ≤
            requestN batchSize (target - countType st.all_questions expected)
        · have hz : target - countType st1.all_questions expected = 0 := by
            rw [hp2]
            omega
          rw [hz, ceilDiv_zero_left batchSize hB]
          rw [ceilDiv_eq_one _ _ (by omega) (by omega)]
        · have hclip : requestN batchSize (target - countType st.all_questions expected) =
              batchSize := by
            unfold requestN at hcase ⊢
            omega
          have hgt : batchSize < target - countType st.all_questions expected := by
            omega
          have hz : target - countType st1.all_questions expected =
              (target - countType st.all_questions expected) - batchSize := by
            rw [hp2, hclip]
            omega
          rw [hz]
          rw [ceilDiv_sub_self (target - countType st.all_questions expected)
            batchSize hB hgt]
          omega
      · rw [hq3, hp3, hp2]
        omega

/-- Batch processing only ever appends items carrying the forced
expected type. -/
theorem processBatch_extend (expected : String) (target : Nat)
    (batch : List Question) :
    ∀ (st : SessState) (added : Nat),
      ∃ tail, (processBatch expected target batch st added).1.all_questions =
          st.all_questions ++ tail ∧
        ∀ q ∈ tail, q.question_type = expected := by
  induction batch with
  | nil =>
    intro st added
    rw [processBatch_nil]
    exact ⟨[], (List.append_nil _).symm, by intro q hq; cases hq⟩
  | cons q rest ih =>
    intro st added
    rcases hA : appendUnique st { q with question_type := expected } with ⟨st', ok⟩
    have hcases := appendUnique_questions_cases st { q with question_type := expected }
    rw [hA] at hcases
    rw [processBatch_cons expected target q rest st st' ok added hA]
    by_cases hstop : target ≤ countType st'.all_questions expected
    · rw [if_pos hstop]
      rcases hcases with h | h
      · exact ⟨[], by rw [h, List.append_nil], by intro p hp; cases hp⟩
      · refine ⟨[{ q with question_type := expected }], by rw [h], ?_⟩
        intro p hp
        rw [List.mem_singleton] at hp
        subst hp
        rfl
    · rw [if_neg hstop]
      obtain ⟨tail, htail, hty⟩ := ih st' (if ok then added + 1 else added)
      rcases hcases with h | h
      · exact ⟨tail, by rw [htail, h], hty⟩
      · refine ⟨{ q with question_type := expected } :: tail,
          by rw [htail, h, List.append_assoc]; rfl, ?_⟩
        intro p hp
        rcases List.mem_cons.mp hp with hp | hp
        · subst hp
          rfl
        · exact hty p hp

/-- The retry loop only ever appends questions of the forced expected
type and trace entries carrying its own label. -/
theorem genLoop_extend (oracle : Oracle) (label expected : String)
    (target batchSize : Nat) (fuel : Nat) :
    ∀ (stagnant : Nat) (st : SessState),
      ∃ tq tc,
        (genLoop oracle label expected target batchSize fuel stagnant
            st).all_questions = st.all_questions ++ tq ∧
        (∀ q ∈ tq, q.question_type = expected) ∧
        (genLoop oracle label expected target batchSize fuel stagnant st).calls =
          st.calls ++ tc ∧
        ∀ c ∈ tc, c.1 = label := by
  induction fuel with
  | zero =>
    intro stagnant st
    rw [genLoop_zero]
    have e1 : ∀ q ∈ ([] : List Question), q.question_type = expected := by
      intro q hq
      cases hq
    have e2 : ∀ c ∈ ([] : List (String × Nat)), c.1 = label := by
      intro c hc
      cases hc
    exact ⟨[], [], (List.append_nil _).symm, e1, (List.append_nil _).symm, e2⟩
  | succ fuel ih =>
    intro stagnant st
    by_cases hdone : target ≤ countType st.all_questions expected
    · rw [genLoop_done oracle label expected target batchSize fuel stagnant st hdone]
      have e1 : ∀ q ∈ ([] : List Question), q.question_type = expected := by
        intro q hq
        cases hq
      have e2 : ∀ c ∈ ([] : List (String × Nat)), c.1 = label := by
        intro c hc
        cases hc
      exact ⟨[], [], (List.append_nil _).symm, e1, (List.append_nil _).symm, e2⟩
    · rcases hO : oracle st.calls.length expected
          (requestN batchSize (target - countType st.all_questions expected)) with
        _ | batch
      · rw [genLoop_fail oracle label expected target batchSize fuel stagnant st hdone hO]
        obtain ⟨tq, tc, h1, h2, h3, h4⟩ := ih stagnant
          { st with calls := st.calls ++
              [(label, requestN batchSize (target - countType st.all_questions expected))] }
        refine ⟨tq, (label, requestN batchSize
            (target - countType st.all_questions expected)) :: tc, h1, h2, ?_, ?_⟩
        · rw [h3]
          simp only []
          rw [List.append_assoc]
          rfl
        · intro c hc
          rcases List.mem_cons.mp hc with hc | hc
          · subst hc
            rfl
          · exact h4 c hc
      · rcases hP : processBatch expected target batch
            { st with calls := st.calls ++
                [(label, requestN batchSize
                  (target - countType st.all_questions expected))] } 0 with ⟨st1, added⟩
        rw [genLoop_batch oracle label expected target batchSize fuel stagnant st st1
          batch added hdone hO hP]
        obtain ⟨ptail, hpt, hpty⟩ := processBatch_extend expected target batch
          { st with calls := st.calls ++
              [(label, requestN batchSize
                (target - countType st.all_questions expected))] } 0
        rw [hP] at hpt
        replace hpt : st1.all_questions = st.all_questions ++ ptail := hpt
        have hpc : st1.calls = st.calls ++
            [(label, requestN batchSize (target - countType st.all_questions expected))] := by
          have := processBatch_calls expected target batch
            { st with calls := st.calls ++
                [(label, requestN batchSize
                  (target - countType st.all_questions expected))] } 0
          rw [hP] at this
          exact this
        by_cases hstop : 2 ≤ (if added = 0 then stagnant + 1 else 0)
        · rw [if_pos hstop]
          refine ⟨ptail, [(label, requestN batchSize
              (target - countType st.all_questions expected))], hpt, hpty, hpc, ?_⟩
          intro c hc
          rw [List.mem_singleton] at hc
          subst hc
          rfl
        · rw [if_neg hstop]
          obtain ⟨tq, tc, h1, h2, h3, h4⟩ :=
            ih (if added = 0 then stagnant + 1 else 0) st1
          refine ⟨ptail ++ tq, (label, requestN batchSize
              (target - countType st.all_questions expected)) :: tc, ?_, ?_, ?_, ?_⟩
          · rw [h1, hpt, List.append_assoc]
          · intro q hq
            rcases List.mem_append.mp hq with hq | hq
            · exact hpty q hq
            · exact h2 q hq
          · rw [h3, hpc, List.append_assoc]
            rfl
          · intro c hc
            rcases List.mem_cons.mp hc with hc | hc
            · subst hc
              rfl
            · exact h4 c hc

theorem countLabel_all_eq (l : List (String × Nat)) (lab : String)
    (h : ∀ c ∈ l, c.1 = lab) : countLabel l lab = l.length := by
  unfold countLabel
  rw [List.countP_eq_length]
  intro c hc
  simp only [beq_iff_eq]
  exact h c hc

theorem countType_all_ne (l : List Question) (e ty : String)
    (h : ∀ q ∈ l, q.question_type = e) (hne : ¬ e = ty) : countType l ty = 0 := by
  unfold countType
  rw [List.countP_eq_zero]
  intro q hq
  simp only [beq_iff_eq]
  rw [h q hq]
  exact hne

/-- `_generate_for_type` under a perfect oracle, entered with no items
of the expected type yet: it appends exactly `target` items of that
type, records exactly `ceil(target / batch_size)` calls under its own
label, and preserves the seen-origin invariant. -/
theorem generateForType_perfect (oracle : Oracle)
    (items : Nat → String → Nat → List Question)
    (hok : ∀ i ty n, oracle i ty n = some (items i ty n))
    (hlen : ∀ i ty n, (items i ty n).length = n)
    (hne : ∀ i ty n, ∀ q ∈ items i ty n, ¬ fpOf q = "")
    (hnodup : ∀ i ty n, ((items i ty n).map fpOf).Nodup)
    (hdisj : ∀ i j ty n ty' n', ¬ i = j →
      ∀ f, f ∈ (items i ty n).map fpOf → f ∉ (items j ty' n').map fpOf)
    (label expected : String) (target batchSize : Nat) (hB : 1 ≤ batchSize)
    (st : SessState) (hcur : countType st.all_questions expected = 0)
    (hseen : SeenPast items st) :
    ∃ tq tc,
      (generateForType oracle label expected target batchSize st).all_questions =
        st.all_questions ++ tq ∧
      tq.length = target ∧
      (∀ q ∈ tq, q.question_type = expected) ∧
      (generateForType oracle label expected target batchSize st).calls =
        st.calls ++ tc ∧
      tc.length = ceilDiv target batchSize ∧
      (∀ c ∈ tc, c.1 = label) ∧
      SeenPast items (generateForType oracle label expected target batchSize st) := by
  unfold generateForType
  by_cases h0 : target = 0
  · rw [if_pos h0, h0, ceilDiv_zero_left batchSize hB]
    have e1 : ∀ q ∈ ([] : List Question), q.question_type = expected := by
      intro q hq
      cases hq
    have e2 : ∀ c ∈ ([] : List (String × Nat)), c.1 = label := by
      intro c hc
      cases hc
    exact ⟨[], [], (List.append_nil _).symm, rfl, e1,
      (List.append_nil _).symm, rfl, e2, hseen⟩
  · rw [if_neg h0]
    have hfuel : ceilDiv (target - countType st.all_questions expected) batchSize ≤
        maxAttempts target batchSize := by
      rw [hcur, Nat.sub_zero]
      unfold maxAttempts
      have : max 1 batchSize = batchSize := by omega
      rw [this]
      omega
    obtain ⟨hq1, hq2, hq3, hq4⟩ := genLoop_perfect oracle items hok hlen hne hnodup hdisj
      label expected target batchSize hB (maxAttempts target batchSize) 0 st
      (by omega) hfuel hseen
    obtain ⟨tq, tc, he1, he2, he3, he4⟩ := genLoop_extend oracle label expected
      target batchSize (maxAttempts target batchSize) 0 st
    refine ⟨tq, tc, he1, ?_, he2, he3, ?_, he4, hq4⟩
    · have := hq3
      rw [he1, List.length_append, hcur, Nat.sub_zero] at this
      omega
    · have := hq2
      rw [he3, List.length_append, hcur, Nat.sub_zero] at this
      omega

theorem countLabel_all_eq_ne (l : List (String × Nat)) (lab lab' : String)
    (h : ∀ c ∈ l, c.1 = lab) (hne : ¬ lab = lab') : countLabel l lab' = 0 := by
  apply countLabel_all_ne
  intro e he
  rw [h e he]
  exact hne

theorem sessionAfterLoops_eq (oracle : Oracle) (mc tf sa batchSize : Nat) :
    sessionAfterLoops oracle mc tf sa batchSize =
      generateForType oracle "sa" "short_answer" sa batchSize
        (generateForType oracle "tf" "true_false" tf batchSize
          (generateForType oracle "mc" "multiple_choice" mc batchSize ⟨[], [], []⟩)) :=
  rfl

theorem generateSession_of_full (oracle : Oracle) (mc tf sa batchSize : Nat)
    (h : ¬ (sessionAfterLoops oracle mc tf sa batchSize).all_questions.length <
      mc + tf + sa) :
    generateSession oracle mc tf sa batchSize =
      sessionAfterLoops oracle mc tf sa batchSize := by
  unfold generateSession
  simp only []
  rw [if_neg h]

/-- C5: exact-fulfillment case.  If the oracle always returns exactly
the requested count of valid items whose fingerprints are nonempty,
distinct within each call and disjoint across calls, then
`generate_quiz_from_analysis_batched` returns exactly
`mc_count + tf_count + sa_count` items and makes exactly
`ceil(target / batch_size)` oracle calls for each question type, with
no top-up call.  (For `{multiple_choice: 5}` with batch size 10 this
gives 5 items from 1 oracle call, instantiated in the witness.) -/
theorem exact_fulfillment (oracle : Oracle)
    (items : Nat → String → Nat → List Question)
    (hok : ∀ i ty n, oracle i ty n = some (items i ty n))
    (hlen : ∀ i ty n, (items i ty n).length = n)
    (hne : ∀ i ty n, ∀ q ∈ items i ty n, ¬ fpOf q = "")
    (hnodup : ∀ i ty n, ((items i ty n).map fpOf).Nodup)
    (hdisj : ∀ i j ty n ty' n', ¬ i = j →
      ∀ f, f ∈ (items i ty n).map fpOf → f ∉ (items j ty' n').map fpOf)
    (mc tf sa batchSize : Nat) (hB : 1 ≤ batchSize) :
    (generateQuizBatched oracle mc tf sa batchSize).length = mc + tf + sa ∧
    countLabel (generateSession oracle mc tf sa batchSize).calls "mc" =
      ceilDiv mc batchSize ∧
    countLabel (generateSession oracle mc tf sa batchSize).calls "tf" =
      ceilDiv tf batchSize ∧
    countLabel (generateSession oracle mc tf sa batchSize).calls "sa" =
      ceilDiv sa batchSize ∧
    countLabel (generateSession oracle mc tf sa batchSize).calls "topup" = 0 := by
  have hseen0 : SeenPast items (⟨[], [], []⟩ : SessState) := by
    intro f hf
    cases hf
  obtain ⟨tq1, tc1, ha1, hl1, ht1, hc1, hcl1, hlb1, hs1⟩ :=
    generateForType_perfect oracle items hok hlen hne hnodup hdisj
      "mc" "multiple_choice" mc batchSize hB ⟨[], [], []⟩ rfl hseen0
  have hcur2 : countType (generateForType oracle "mc" "multiple_choice" mc batchSize
      ⟨[], [], []⟩).all_questions "true_false" = 0 := by
    rw [ha1]
    exact countType_all_ne tq1 "multiple_choice" "true_false" ht1 (by decide)
  obtain ⟨tq2, tc2, ha2, hl2, ht2, hc2, hcl2, hlb2, hs2⟩ :=
    generateForType_perfect oracle items hok hlen hne hnodup hdisj
      "tf" "true_false" tf batchSize hB
      (generateForType oracle "mc" "multiple_choice" mc batchSize ⟨[], [], []⟩)
      hcur2 hs1
  have hcur3 : countType (generateForType oracle "tf" "true_false" tf batchSize
      (generateForType oracle "mc" "multiple_choice" mc batchSize
        ⟨[], [], []⟩)).all_questions "short_answer" = 0 := by
    rw [ha2, countType_append, ha1]
    have h0 : (⟨[], [], []⟩ : SessState).all_questions = [] := rfl
    rw [h0, List.nil_append]
    rw [countType_all_ne tq1 "multiple_choice" "short_answer" ht1 (by decide)]
    rw [countType_all_ne tq2 "true_false" "short_answer" ht2 (by decide)]
  obtain ⟨tq3, tc3, ha3, hl3, ht3, hc3, hcl3, hlb3, hs3⟩ :=
    generateForType_perfect oracle items hok hlen hne hnodup hdisj
      "sa" "short_answer" sa batchSize hB
      (generateForType oracle "tf" "true_false" tf batchSize
        (generateForType oracle "mc" "multiple_choice" mc batchSize ⟨[], [], []⟩))
      hcur3 hs2
  have hlen3 : (sessionAfterLoops oracle mc tf sa batchSize).all_questions.length =
      mc + tf + sa := by
    rw [sessionAfterLoops_eq, ha3, List.length_append, ha2, List.length_append,
      ha1, List.length_append, hl1, hl2, hl3]
    have h0 : ((⟨[], [], []⟩ : SessState).all_questions).length = 0 := rfl
    rw [h0]
    omega
  have hfull : generateSession oracle mc tf sa batchSize =
      sessionAfterLoops oracle mc tf sa batchSize :=
    generateSession_of_full oracle mc tf sa batchSize (by omega)
  have hcalls : (sessionAfterLoops oracle mc tf sa batchSize).calls =
      (((⟨[], [], []⟩ : SessState).calls ++ tc1) ++ tc2) ++ tc3 := by
    rw [sessionAfterLoops_eq, hc3, hc2, hc1]
  have hcl0 : ∀ lab, countLabel ((⟨[], [], []⟩ : SessState).calls) lab = 0 := by
    intro lab
    rfl
  refine ⟨?_, ?_, ?_, ?_, ?_⟩
  · unfold generateQuizBatched
    rw [hfull, List.length_take, hlen3, Nat.min_self]
  · rw [hfull, hcalls, countLabel_append, countLabel_append, countLabel_append]
    rw [hcl0, countLabel_all_eq tc1 "mc" hlb1, hcl1]
    rw [countLabel_all_eq_ne tc2 "tf" "mc" hlb2 (by decide)]
    rw [countLabel_all_eq_ne tc3 "sa" "mc" hlb3 (by decide)]
    omega
  · rw [hfull, hcalls, countLabel_append, countLabel_append, countLabel_append]
    rw [hcl0, countLabel_all_eq tc2 "tf" hlb2, hcl2]
    rw [countLabel_all_eq_ne tc1 "mc" "tf" hlb1 (by decide)]
    rw [countLabel_all_eq_ne tc3 "sa" "tf" hlb3 (by decide)]
    omega
  · rw [hfull, hcalls, countLabel_append, countLabel_append, countLabel_append]
    rw [hcl0, countLabel_all_eq tc3 "sa" hlb3, hcl3]
    rw [countLabel_all_eq_ne tc1 "mc" "sa" hlb1 (by decide)]
    rw [countLabel_all_eq_ne tc2 "tf" "sa" hlb2 (by decide)]
    omega
  · rw [hfull, hcalls, countLabel_append, countLabel_append, countLabel_append]
    rw [hcl0]
    rw [countLabel_all_eq_ne tc1 "mc" "topup" hlb1 (by decide)]
    rw [countLabel_all_eq_ne tc2 "tf" "topup" hlb2 (by decide)]
    rw [countLabel_all_eq_ne tc3 "sa" "topup" hlb3 (by decide)]

/-- Synthetic question texts for instantiating the perfect oracle: the
k-th text of call i is a run of `Nat.pair i k + 1` letters `a`, so texts
are nonempty, fixed by the fingerprint normalizer, and pairwise distinct
across calls and within a call. -/
def wText (i k : Nat) : String := ⟨List.replicate (Nat.pair i k + 1) 'a'⟩

def wItem (i k : Nat) : Question :=
  { question_text := wText i k, question_type := "multiple_choice",
    options := ["a", "b", "c", "d"], correct_answer_index := 0,
    correct_answer := "a", explanation := "", misconception_tag := "",
    pairs := none }

def wItems (i : Nat) (_ty : String) (n : Nat) : List Question :=
  (List.range n).map (fun k => wItem i k)

def wOracle : Oracle := fun i ty n => some (wItems i ty n)

theorem dropWhile_replicate_a (m : Nat) :
    List.dropWhile isPySpace (List.replicate m 'a') = List.replicate m 'a' := by
  cases m with
  | zero => rfl
  | succ m =>
    rw [List.replicate_succ, List.dropWhile_cons]
    rw [if_neg (by decide)]

theorem pyStrip_replicate_a (m : Nat) :
    pyStripList (List.replicate m 'a') = List.replicate m 'a' := by
  unfold pyStripList
  rw [dropWhile_replicate_a, List.reverse_replicate, dropWhile_replicate_a,
    List.reverse_replicate]

theorem map_toLower_replicate_a (m : Nat) :
    (List.replicate m 'a').map Char.toLower = List.replicate m 'a' := by
  rw [List.map_replicate]
  have h : Char.toLower 'a' = 'a' := by decide
  rw [h]

theorem collapseWS_replicate_a (m : Nat) :
    collapseWSAux false (List.replicate m 'a') = List.replicate m 'a' := by
  induction m with
  | zero => rfl
  | succ m ih =>
    rw [List.replicate_succ]
    show (if isPySpace 'a' then
        (if False then collapseWSAux true (List.replicate m 'a')
         else ' ' :: collapseWSAux true (List.replicate m 'a'))
      else 'a' :: collapseWSAux false (List.replicate m 'a')) =
      'a' :: List.replicate m 'a'
    rw [if_neg (by decide), ih]

theorem pyNorm_replicate_a (m : Nat) :
    pyNorm ⟨List.replicate m 'a'⟩ = ⟨List.replicate m 'a'⟩ := by
  unfold pyNorm
  have hd : (⟨List.replicate m 'a'⟩ : String).data = List.replicate m 'a' := rfl
  rw [hd, pyStrip_replicate_a, map_toLower_replicate_a, collapseWS_replicate_a]

theorem fpOf_wItem (i k : Nat) : fpOf (wItem i k) = wText i k := by
  show pyNorm (wText i k) = wText i k
  unfold wText
  exact pyNorm_replicate_a _

theorem wText_inj (i k i' k' : Nat) (h : wText i k = wText i' k') :
    i = i' ∧ k = k' := by
  unfold wText at h
  have hd : List.replicate (Nat.pair i k + 1) 'a' =
      List.replicate (Nat.pair i' k' + 1) 'a' := congrArg String.data h
  have hl := congrArg List.length hd
  rw [List.length_replicate, List.length_replicate] at hl
  have hp : Nat.pair i k = Nat.pair i' k' := by omega
  exact Nat.pair_eq_pair.mp hp

theorem wText_ne_empty (i k : Nat) : ¬ wText i k = "" := by
  intro h
  have hd : List.replicate (Nat.pair i k + 1) 'a' = [] := congrArg String.data h
  have hl := congrArg List.length hd
  rw [List.length_replicate] at hl
  exact Nat.succ_ne_zero _ hl

theorem wOracle_ok : ∀ i ty n, wOracle i ty n = some (wItems i ty n) :=
  fun _ _ _ => rfl

theorem wItems_length : ∀ i ty n, (wItems i ty n).length = n := by
  intro i ty n
  unfold wItems
  rw [List.length_map, List.length_range]

theorem wItems_ne : ∀ i ty n, ∀ q ∈ wItems i ty n, ¬ fpOf q = "" := by
  intro i ty n q hq
  unfold wItems at hq
  rcases List.mem_map.mp hq with ⟨k, hk, hkq⟩
  rw [← hkq, fpOf_wItem]
  exact wText_ne_empty i k

theorem wItems_nodup : ∀ i ty n, ((wItems i ty n).map fpOf).Nodup := by
  intro i ty n
  unfold wItems
  rw [List.map_map]
  refine List.Nodup.map ?_ (List.nodup_range n)
  intro k k' hkk
  have h1 : wText i k = wText i k' := by
    have e1 : fpOf (wItem i k) = fpOf (wItem i k') := hkk
    rw [fpOf_wItem, fpOf_wItem] at e1
    exact e1
  exact (wText_inj i k i k' h1).2

theorem wItems_disj : ∀ i j ty n ty' n', ¬ i = j →
    ∀ f, f ∈ (wItems i ty n).map fpOf → f ∉ (wItems j ty' n').map fpOf := by
  intro i j ty n ty' n' hij f hfi hfj
  unfold wItems at hfi hfj
  rw [List.map_map] at hfi hfj
  rcases List.mem_map.mp hfi with ⟨k, hk, hfk⟩
  rcases List.mem_map.mp hfj with ⟨k', hk', hfk'⟩
  have e1 : fpOf (wItem i k) = f := hfk
  have e2 : fpOf (wItem j k') = f := hfk'
  rw [fpOf_wItem] at e1 e2
  have h1 : wText i k = wText j k' := by rw [e1, e2]
  exact hij (wText_inj i k j k' h1).1

theorem exact_fulfillment_witness :
    (generateQuizBatched wOracle 5 0 0 10).length = 5 ∧
    countLabel (generateSession wOracle 5 0 0 10).calls "mc" = 1 ∧
    countLabel (generateSession wOracle 5 0 0 10).calls "tf" = 0 ∧
    countLabel (generateSession wOracle 5 0 0 10).calls "sa" = 0 ∧
    countLabel (generateSession wOracle 5 0 0 10).calls "topup" = 0 := by
  have h := exact_fulfillment wOracle wItems wOracle_ok wItems_length wItems_ne
    wItems_nodup wItems_disj 5 0 0 10 (by decide)
  exact ⟨h.1, h.2.1, h.2.2.1, h.2.2.2.1, h.2.2.2.2⟩

/-! ## C9: order-invariance and sensitivity of the upload signature.

The signature joins the sorted parts `f"{name}:{len(content)}:{hash}"`
with `"|"`.  The length component is a decimal numeral and the hash
component is the first 12 characters of `hashlib.md5(...).hexdigest()`,
so neither contains `':'` or `'|'`; file names are arbitrary. -/

/-- Decimal digit characters. -/
def decDigits : List Char :=
  ['0', '1', '2', '3', '4'] ++ ['5', '6', '7', '8', '9']

/-- Lowercase hexadecimal characters, the alphabet of
`hashlib.md5(...).hexdigest()`. -/
def hexDigits : List Char :=
  decDigits ++ ['a', 'b', 'c', 'd', 'e', 'f']

/-- The shape of the hash component `_compute_upload_signature` builds:
the first 12 characters of an MD5 hexdigest. -/
def Md5Hex (s : String) : Prop :=
  s.data.length = 12 ∧ ∀ c ∈ s.data, c ∈ hexDigits

instance (s : String) : Decidable (Md5Hex s) := by
  unfold Md5Hex
  infer_instance

theorem digitChar_mem_decDigits (m : Nat) (h : m < 10) :
    Nat.digitChar m ∈ decDigits := by
  interval_cases m <;> decide

theorem toDigitsCore_mem : ∀ (fuel n : Nat) (ds : List Char),
    (∀ c ∈ ds, c ∈ decDigits) →
    ∀ c ∈ Nat.toDigitsCore 10 fuel n ds, c ∈ decDigits := by
  intro fuel
  induction fuel with
  | zero =>
    intro n ds h c hc
    exact h c hc
  | succ fuel ih =>
    intro n ds h c hc
    have hstep : Nat.toDigitsCore 10 (fuel + 1) n ds =
        if n / 10 = 0 then Nat.digitChar (n % 10) :: ds
        else Nat.toDigitsCore 10 fuel (n / 10) (Nat.digitChar (n % 10) :: ds) := rfl
    rw [hstep] at hc
    by_cases hz : n / 10 = 0
    · rw [if_pos hz] at hc
      rcases List.mem_cons.mp hc with hc | hc
      · subst hc
        exact digitChar_mem_decDigits _ (Nat.mod_lt n (by omega))
      · exact h c hc
    · rw [if_neg hz] at hc
      refine ih (n / 10) _ ?_ c hc
      intro c' hc'
      rcases List.mem_cons.mp hc' with hc' | hc'
      · subst hc'
        exact digitChar_mem_decDigits _ (Nat.mod_lt n (by omega))
      · exact h c' hc'

theorem repr_data_digits (n : Nat) : ∀ c ∈ (Nat.repr n).data, c ∈ decDigits := by
  intro c hc
  replace hc : c ∈ Nat.toDigits 10 n := hc
  exact toDigitsCore_mem (n + 1) n [] (by intro c' hc'; cases hc') c hc

theorem toDigitsCore_shift : ∀ (fuel n : Nat) (ds : List Char),
    Nat.toDigitsCore 10 fuel n ds = Nat.toDigitsCore 10 fuel n [] ++ ds := by
  intro fuel
  induction fuel with
  | zero =>
    intro n ds
    rfl
  | succ fuel ih =>
    intro n ds
    have hstep : ∀ ds' : List Char, Nat.toDigitsCore 10 (fuel + 1) n ds' =
        if n / 10 = 0 then Nat.digitChar (n % 10) :: ds'
        else Nat.toDigitsCore 10 fuel (n / 10) (Nat.digitChar (n % 10) :: ds') :=
      fun _ => rfl
    rw [hstep, hstep]
    by_cases hz : n / 10 = 0
    · rw [if_pos hz, if_pos hz]
      rfl
    · rw [if_neg hz, if_neg hz]
      rw [ih (n / 10) (Nat.digitChar (n % 10) :: ds),
        ih (n / 10) [Nat.digitChar (n % 10)]]
      rw [List.append_assoc]
      rfl

theorem toDigitsCore_fuel : ∀ (f₁ f₂ n : Nat) (ds : List Char), n < f₁ → n < f₂ →
    Nat.toDigitsCore 10 f₁ n ds = Nat.toDigitsCore 10 f₂ n ds := by
  intro f₁
  induction f₁ with
  | zero =>
    intro f₂ n ds h₁ h₂
    omega
  | succ f₁ ih =>
    intro f₂ n ds h₁ h₂
    cases f₂ with
    | zero => omega
    | succ f₂ =>
      have hstep : ∀ (f : Nat), Nat.toDigitsCore 10 (f + 1) n ds =
          if n / 10 = 0 then Nat.digitChar (n % 10) :: ds
          else Nat.toDigitsCore 10 f (n / 10) (Nat.digitChar (n % 10) :: ds) :=
        fun _ => rfl
      rw [hstep, hstep]
      by_cases hz : n / 10 = 0
      · rw [if_pos hz, if_pos hz]
      · rw [if_neg hz, if_neg hz]
        have h10 : 10 ≤ n := by
          by_contra hcon
          exact hz (Nat.div_eq_of_lt (by omega))
        have hlt : n / 10 < n := Nat.div_lt_self (by omega) (by omega)
        exact ih f₂ (n / 10) _ (by omega) (by omega)

/-- The numeric value of a decimal numeral, most significant digit
first. -/
def decVal (l : List Char) : Nat :=
  l.foldl (fun a c => 10 * a + (c.toNat - 48)) 0

theorem decVal_append_singleton (l : List Char) (c : Char) :
    decVal (l ++ [c]) = 10 * decVal l + (c.toNat - 48) := by
  unfold decVal
  rw [List.foldl_append]
  rfl

theorem digitChar_val (m : Nat) (h : m < 10) : (Nat.digitChar m).toNat - 48 = m := by
  interval_cases m <;> decide

theorem decVal_toDigits : ∀ n : Nat, decVal (Nat.toDigits 10 n) = n := by
  intro n
  induction n using Nat.strong_induction_on with
  | _ n ih =>
    show decVal (Nat.toDigitsCore 10 (n + 1) n []) = n
    have hstep : Nat.toDigitsCore 10 (n + 1) n [] =
        if n / 10 = 0 then [Nat.digitChar (n % 10)]
        else Nat.toDigitsCore 10 n (n / 10) [Nat.digitChar (n % 10)] := rfl
    rw [hstep]
    by_cases hz : n / 10 = 0
    · rw [if_pos hz]
      have hn : n < 10 := by
        by_contra hcon
        have : 1 ≤ n / 10 := (Nat.le_div_iff_mul_le (by omega)).mpr (by omega)
        omega
      have hv : decVal [Nat.digitChar (n % 10)] =
          (Nat.digitChar (n % 10)).toNat - 48 := by
        show 10 * 0 + ((Nat.digitChar (n % 10)).toNat - 48) = _
        omega
      rw [hv, digitChar_val _ (Nat.mod_lt n (by omega)), Nat.mod_eq_of_lt hn]
    · rw [if_neg hz]
      have h10 : 10 ≤ n := by
        by_contra hcon
        exact hz (Nat.div_eq_of_lt (by omega))
      rw [toDigitsCore_shift]
      rw [toDigitsCore_fuel n (n / 10 + 1) (n / 10) []
        (Nat.div_lt_self (by omega) (by omega)) (by omega)]
      have hbr : Nat.toDigitsCore 10 (n / 10 + 1) (n / 10) [] =
          Nat.toDigits 10 (n / 10) := rfl
      rw [hbr, decVal_append_singleton,
        ih (n / 10) (Nat.div_lt_self (by omega) (by omega)),
        digitChar_val _ (Nat.mod_lt n (by omega))]
      omega

theorem repr_injective (m n : Nat) (h : Nat.repr m = Nat.repr n) : m = n := by
  have hd : Nat.toDigits 10 m = Nat.toDigits 10 n := congrArg String.data h
  have := congrArg decVal hd
  rw [decVal_toDigits, decVal_toDigits] at this
  exact this

theorem decDigits_excl : ∀ c ∈ decDigits, ¬ c = ':' ∧ ¬ c = '|' := by decide

theorem hexDigits_excl : ∀ c ∈ hexDigits, ¬ c = ':' ∧ ¬ c = '|' := by decide

theorem repr_no_colon (n : Nat) : ':' ∉ (Nat.repr n).data := fun h =>
  (decDigits_excl _ (repr_data_digits n _ h)).1 rfl

theorem repr_no_pipe (n : Nat) : '|' ∉ (Nat.repr n).data := fun h =>
  (decDigits_excl _ (repr_data_digits n _ h)).2 rfl

/-- In a signature part `name:len:hash`, a `'|'` can only occur inside
the name: splitting the part at a `'|'` splits the name. -/
theorem pipePos (X Y n l h : List Char) (hpl : '|' ∉ l) (hph : '|' ∉ h)
    (heq : X ++ '|' :: Y = n ++ ':' :: (l ++ ':' :: h)) :
    ∃ nt, n = X ++ '|' :: nt ∧ Y = nt ++ ':' :: (l ++ ':' :: h) := by
  rcases List.append_eq_append_iff.mp heq with ⟨a, hn, hrest⟩ | ⟨c, hX, hrest⟩
  · cases a with
    | nil =>
      injection hrest with h1 h2
      exact absurd h1 (by decide)
    | cons c a' =>
      injection hrest with h1 h2
      refine ⟨a', ?_, h2⟩
      rw [hn, ← h1]
  · cases c with
    | nil =>
      injection hrest with h1 h2
      exact absurd h1 (by decide)
    | cons c₁ r =>
      injection hrest with h1 h2
      rcases List.append_eq_append_iff.mp h2 with ⟨s, hr, hs⟩ | ⟨s, hl, hs⟩
      · cases s with
        | nil =>
          injection hs with h3 h4
          exact absurd h3 (by decide)
        | cons c₂ s' =>
          injection hs with h3 h4
          refine absurd ?_ hph
          rw [h4]
          exact List.mem_append_right _ (List.mem_cons_self _ _)
      · cases s with
        | nil =>
          injection hs with h3 h4
          exact absurd h3 (by decide)
        | cons c₂ s' =>
          injection hs with h3 h4
          refine absurd ?_ hpl
          rw [hl, ← h3]
          exact List.mem_append_right _ (List.mem_cons_self _ _)

/-- One orientation of the descent step for the rotation equation of two
same-name signature parts. -/
theorem gcaseAux (N : Nat)
    (ih : ∀ n₁ n₂ l₁ l₂ h₁ h₂ : List Char,
      n₁.length + n₂.length ≤ N →
      l₁.length = l₂.length → h₁.length = h₂.length →
      ':' ∉ l₁ → ':' ∉ l₂ → ':' ∉ h₁ → ':' ∉ h₂ →
      '|' ∉ l₁ → '|' ∉ l₂ → '|' ∉ h₁ → '|' ∉ h₂ →
      n₂ ++ ':' :: (l₂ ++ ':' :: (h₂ ++ '|' :: n₁)) =
        n₁ ++ ':' :: (l₁ ++ ':' :: (h₁ ++ '|' :: n₂)) →
      l₁ = l₂ ∧ h₁ = h₂)
    (n₁ n₂ a l₁ l₂ h₁ h₂ : List Char)
    (hlen : n₁.length + n₂.length ≤ N + 1)
    (hl : l₁.length = l₂.length) (hh : h₁.length = h₂.length)
    (hcl₁ : ':' ∉ l₁) (hcl₂ : ':' ∉ l₂) (hch₁ : ':' ∉ h₁) (hch₂ : ':' ∉ h₂)
    (hpl₁ : '|' ∉ l₁) (hpl₂ : '|' ∉ l₂) (hph₁ : '|' ∉ h₁) (hph₂ : '|' ∉ h₂)
    (hn : n₁ = n₂ ++ a)
    (hW : ':' :: (l₂ ++ ':' :: (h₂ ++ '|' :: n₁)) =
      a ++ ':' :: (l₁ ++ ':' :: (h₁ ++ '|' :: n₂))) :
    l₁ = l₂ ∧ h₁ = h₂ := by
  cases a with
  | nil =>
    rw [List.append_nil] at hn
    injection hW with h1 h2
    obtain ⟨hla, hres⟩ := List.append_inj h2 hl.symm
    injection hres with h3 h4
    rw [hn] at h4
    obtain ⟨hha, _⟩ := List.append_inj h4 hh.symm
    exact ⟨hla.symm, hha.symm⟩
  | cons c a' =>
    injection hW with h1 hW1
    rcases List.append_eq_append_iff.mp hW1 with ⟨r, ha', hs⟩ | ⟨r, hl₂eq, hs⟩
    · -- a' = l₂ ++ r
      cases r with
      | nil =>
        injection hs with h2 hs1
        rcases List.append_eq_append_iff.mp hs1 with ⟨s, hl₁eq, hs2⟩ | ⟨s, hh₂eq, hs2⟩
        · cases s with
          | nil =>
            injection hs2 with h3 _
            exact absurd h3 (by decide)
          | cons c₂ s' =>
            injection hs2 with h3 h4
            refine absurd ?_ hpl₁
            rw [hl₁eq, ← h3]
            exact List.mem_append_right _ (List.mem_cons_self _ _)
        · cases s with
          | nil =>
            injection hs2 with h3 _
            exact absurd h3 (by decide)
          | cons c₂ s' =>
            injection hs2 with h3 h4
            refine absurd ?_ hch₂
            rw [hh₂eq, ← h3]
            exact List.mem_append_right _ (List.mem_cons_self _ _)
      | cons c₁ r' =>
        injection hs with h2 hW2
        rcases List.append_eq_append_iff.mp hW2 with ⟨s, hr', hs2⟩ | ⟨s, hh₂eq, hs2⟩
        · -- r' = h₂ ++ s
          cases s with
          | nil =>
            injection hs2 with h3 _
            exact absurd h3 (by decide)
          | cons c₂ s' =>
            injection hs2 with h3 hW3
            -- n₁ = s' ++ ':' :: (l₁ ++ ':' :: (h₁ ++ '|' :: n₂))
            have hN1 : n₁ = n₂ ++ ':' :: (l₂ ++ ':' :: (h₂ ++ '|' :: s')) := by
              rw [hn, ha', hr', ← h1, ← h2, ← h3]
            have hG : n₂ ++ ':' :: (l₂ ++ ':' :: (h₂ ++ '|' :: s')) =
                s' ++ ':' :: (l₁ ++ ':' :: (h₁ ++ '|' :: n₂)) := by
              rw [← hN1, hW3]
              rfl
            have hmeas : s'.length + n₂.length ≤ N := by
              have hle := congrArg List.length hN1
              simp only [List.length_append, List.length_cons] at hle
              omega
            exact ih s' n₂ l₁ l₂ h₁ h₂ hmeas hl hh hcl₁ hcl₂ hch₁ hch₂
              hpl₁ hpl₂ hph₁ hph₂ hG
        · -- h₂ = r' ++ s
          cases s with
          | nil =>
            injection hs2 with h3 _
            exact absurd h3 (by decide)
          | cons c₂ s' =>
            injection hs2 with h3 h4
            refine absurd ?_ hch₂
            rw [hh₂eq, ← h3]
            exact List.mem_append_right _ (List.mem_cons_self _ _)
    · -- l₂ = a' ++ r
      cases r with
      | nil =>
        rw [List.append_nil] at hl₂eq
        injection hs with h2 hs1
        rcases List.append_eq_append_iff.mp hs1 with ⟨s, hh₂eq, hs2⟩ | ⟨s, hl₁eq, hs2⟩
        · cases s with
          | nil =>
            injection hs2 with h3 _
            exact absurd h3 (by decide)
          | cons c₂ s' =>
            injection hs2 with h3 h4
            refine absurd ?_ hch₂
            rw [hh₂eq, ← h3]
            exact List.mem_append_right _ (List.mem_cons_self _ _)
        · cases s with
          | nil =>
            injection hs2 with h3 _
            exact absurd h3 (by decide)
          | cons c₂ s' =>
            injection hs2 with h3 h4
            refine absurd ?_ hpl₁
            rw [hl₁eq, ← h3]
            exact List.mem_append_right _ (List.mem_cons_self _ _)
      | cons c₁ r' =>
        injection hs with h2 _
        refine absurd ?_ hcl₂
        rw [hl₂eq, ← h2]
        exact List.mem_append_right _ (List.mem_cons_self _ _)

/-- The rotation equation of two same-name parts forces equal length and
hash components: the self-similar descent on the shared name. -/
theorem gdescent : ∀ (N : Nat) (n₁ n₂ l₁ l₂ h₁ h₂ : List Char),
    n₁.length + n₂.length ≤ N →
    l₁.length = l₂.length → h₁.length = h₂.length →
    ':' ∉ l₁ → ':' ∉ l₂ → ':' ∉ h₁ → ':' ∉ h₂ →
    '|' ∉ l₁ → '|' ∉ l₂ → '|' ∉ h₁ → '|' ∉ h₂ →
    n₂ ++ ':' :: (l₂ ++ ':' :: (h₂ ++ '|' :: n₁)) =
      n₁ ++ ':' :: (l₁ ++ ':' :: (h₁ ++ '|' :: n₂)) →
    l₁ = l₂ ∧ h₁ = h₂ := by
  intro N
  induction N with
  | zero =>
    intro n₁ n₂ l₁ l₂ h₁ h₂ hlen hl hh hcl₁ hcl₂ hch₁ hch₂ hpl₁ hpl₂ hph₁ hph₂ hG
    have hn₁ : n₁ = [] := by
      have := List.length_eq_zero.mp (show n₁.length = 0 by omega)
      exact this
    have hn₂ : n₂ = [] := List.length_eq_zero.mp (by omega)
    subst hn₁
    subst hn₂
    injection hG with h1 h2
    obtain ⟨hla, hres⟩ := List.append_inj h2 hl.symm
    injection hres with h3 h4
    obtain ⟨hha, _⟩ := List.append_inj h4 hh.symm
    exact ⟨hla.symm, hha.symm⟩
  | succ N ih =>
    intro n₁ n₂ l₁ l₂ h₁ h₂ hlen hl hh hcl₁ hcl₂ hch₁ hch₂ hpl₁ hpl₂ hph₁ hph₂ hG
    rcases List.append_eq_append_iff.mp hG with ⟨a, hn, hW⟩ | ⟨a, hn, hW⟩
    · exact gcaseAux N ih n₁ n₂ a l₁ l₂ h₁ h₂ hlen hl hh
        hcl₁ hcl₂ hch₁ hch₂ hpl₁ hpl₂ hph₁ hph₂ hn hW
    · have := gcaseAux N ih n₂ n₁ a l₂ l₁ h₂ h₁ (by omega) hl.symm hh.symm
        hcl₂ hcl₁ hch₂ hch₁ hpl₂ hpl₁ hph₂ hph₁ hn hW
      exact ⟨this.1.symm, this.2.symm⟩

/-- The non-recursive branch of the word-equation theorem: the two sides
overlap with opposite orientation, producing the rotation equation. -/
theorem wordEqBase (w n l₁ l₂ h₁ h₂ r : List Char)
    (hl : l₁.length = l₂.length) (hh : h₁.length = h₂.length)
    (hcl₁ : ':' ∉ l₁) (hcl₂ : ':' ∉ l₂) (hch₁ : ':' ∉ h₁) (hch₂ : ':' ∉ h₂)
    (hpl₁ : '|' ∉ l₁) (hpl₂ : '|' ∉ l₂) (hph₁ : '|' ∉ h₁) (hph₂ : '|' ∉ h₂)
    (hu : n ++ ':' :: (l₁ ++ ':' :: h₁) = w ++ r)
    (hr : '|' :: (n ++ ':' :: (l₂ ++ ':' :: h₂)) = r ++ '|' :: w) :
    l₁ = l₂ ∧ h₁ = h₂ := by
  cases r with
  | nil =>
    rw [List.append_nil] at hu
    injection hr with _ h2
    rw [← hu] at h2
    have h3 := List.append_cancel_left h2
    injection h3 with _ h4
    obtain ⟨hla, hres⟩ := List.append_inj h4 hl.symm
    injection hres with _ h5
    exact ⟨hla.symm, h5.symm⟩
  | cons c z =>
    injection hr with h1 h2
    -- h2 : n ++ ':' :: (l₂ ++ ':' :: h₂) = z ++ '|' :: w
    obtain ⟨nt₁, hn₁, hz⟩ := pipePos w z n l₁ h₁ hpl₁ hph₁ (by rw [hu, ← h1])
    obtain ⟨nt₂, hn₂, hw⟩ := pipePos z w n l₂ h₂ hpl₂ hph₂ h2.symm
    have hG0 : w ++ '|' :: nt₁ = z ++ '|' :: nt₂ := by rw [← hn₁, ← hn₂]
    rw [hw, hz] at hG0
    have hG : nt₂ ++ ':' :: (l₂ ++ ':' :: (h₂ ++ '|' :: nt₁)) =
        nt₁ ++ ':' :: (l₁ ++ ':' :: (h₁ ++ '|' :: nt₂)) := by
      have := hG0
      simp only [List.append_assoc, List.cons_append] at this ⊢
      exact this
    exact gdescent (nt₁.length + nt₂.length) nt₁ nt₂ l₁ l₂ h₁ h₂ (le_refl _)
      hl hh hcl₁ hcl₂ hch₁ hch₂ hpl₁ hpl₂ hph₁ hph₂ hG

/-- The collision word equation `u|w = w|v` for same-name parts forces
equal length and hash components. -/
theorem wordEq : ∀ (K : Nat) (w n l₁ l₂ h₁ h₂ : List Char),
    w.length ≤ K →
    l₁.length = l₂.length → h₁.length = h₂.length →
    ':' ∉ l₁ → ':' ∉ l₂ → ':' ∉ h₁ → ':' ∉ h₂ →
    '|' ∉ l₁ → '|' ∉ l₂ → '|' ∉ h₁ → '|' ∉ h₂ →
    (n ++ ':' :: (l₁ ++ ':' :: h₁)) ++ '|' :: w =
      w ++ '|' :: (n ++ ':' :: (l₂ ++ ':' :: h₂)) →
    l₁ = l₂ ∧ h₁ = h₂ := by
  intro K
  induction K with
  | zero =>
    intro w n l₁ l₂ h₁ h₂ hK hl hh hcl₁ hcl₂ hch₁ hch₂ hpl₁ hpl₂ hph₁ hph₂ hE
    rcases List.append_eq_append_iff.mp hE with ⟨a, hwa, hrest⟩ | ⟨a, hua, hrest⟩
    · have := congrArg List.length hwa
      simp only [List.length_append, List.length_cons] at this
      omega
    · exact wordEqBase w n l₁ l₂ h₁ h₂ a hl hh hcl₁ hcl₂ hch₁ hch₂
        hpl₁ hpl₂ hph₁ hph₂ hua hrest
  | succ K ih =>
    intro w n l₁ l₂ h₁ h₂ hK hl hh hcl₁ hcl₂ hch₁ hch₂ hpl₁ hpl₂ hph₁ hph₂ hE
    rcases List.append_eq_append_iff.mp hE with ⟨a, hwa, hrest⟩ | ⟨a, hua, hrest⟩
    · cases a with
      | nil =>
        rw [List.append_nil] at hwa
        refine wordEqBase w n l₁ l₂ h₁ h₂ [] hl hh hcl₁ hcl₂ hch₁ hch₂
          hpl₁ hpl₂ hph₁ hph₂ ?_ ?_
        · show n ++ ':' :: (l₁ ++ ':' :: h₁) = w ++ []
          rw [List.append_nil]
          exact hwa.symm
        · show '|' :: (n ++ ':' :: (l₂ ++ ':' :: h₂)) = [] ++ '|' :: w
          exact hrest.symm
      | cons c t =>
        injection hrest with h1 h2
        have h2' : w = t ++ '|' :: (n ++ ':' :: (l₂ ++ ':' :: h₂)) := h2
        have hwa' : w = (n ++ ':' :: (l₁ ++ ':' :: h₁)) ++ '|' :: t := by
          rw [hwa, ← h1]
        have hET : (n ++ ':' :: (l₁ ++ ':' :: h₁)) ++ '|' :: t =
            t ++ '|' :: (n ++ ':' :: (l₂ ++ ':' :: h₂)) := by
          rw [← hwa']
          exact h2'
        have hKt : t.length ≤ K := by
          have := congrArg List.length h2'
          simp only [List.length_append, List.length_cons] at this
          omega
        exact ih t n l₁ l₂ h₁ h₂ hKt hl hh hcl₁ hcl₂ hch₁ hch₂
          hpl₁ hpl₂ hph₁ hph₂ hET
    · exact wordEqBase w n l₁ l₂ h₁ h₂ a hl hh hcl₁ hcl₂ hch₁ hch₂
        hpl₁ hpl₂ hph₁ hph₂ hua hrest

/-- `"|".join` at the character level. -/
def joinBar : List (List Char) → List Char
  | [] => []
  | [x] => x
  | x :: y :: rest => x ++ '|' :: joinBar (y :: rest)

theorem joinBar_cons_cons (x y : List Char) (rest : List (List Char)) :
    joinBar (x :: y :: rest) = x ++ '|' :: joinBar (y :: rest) := rfl

theorem joinBar_cons_append (X Y : List Char) (L : List (List Char)) :
    joinBar ((X ++ '|' :: Y) :: L) = X ++ '|' :: joinBar (Y :: L) := by
  cases L with
  | nil => rfl
  | cons z L' =>
    simp only [joinBar_cons_cons, List.append_assoc, List.cons_append]

theorem intercalate_go_data : ∀ (as : List String) (acc : String),
    (String.intercalate.go acc "|" as).data =
      joinBar (acc.data :: as.map String.data) := by
  intro as
  induction as with
  | nil =>
    intro acc
    rfl
  | cons a as ih =>
    intro acc
    show (String.intercalate.go (acc ++ "|" ++ a) "|" as).data = _
    rw [ih (acc ++ "|" ++ a)]
    have hd : (acc ++ "|" ++ a).data = acc.data ++ '|' :: a.data := by
      rw [String.data_append, String.data_append]
      have hbar : ("|" : String).data = ['|'] := by decide
      rw [hbar, List.append_assoc]
      rfl
    rw [hd, List.map_cons, joinBar_cons_append]
    rfl

theorem intercalate_data (l : List String) :
    (String.intercalate "|" l).data = joinBar (l.map String.data) := by
  cases l with
  | nil => rfl
  | cons a as =>
    show (String.intercalate.go a "|" as).data = _
    rw [intercalate_go_data]
    rfl

theorem joinBar_append (X Y : List (List Char)) (hX : ¬ X = []) (hY : ¬ Y = []) :
    joinBar (X ++ Y) = joinBar X ++ '|' :: joinBar Y := by
  induction X with
  | nil => exact absurd rfl hX
  | cons x X' ih =>
    cases X' with
    | nil =>
      cases Y with
      | nil => exact absurd rfl hY
      | cons y Y' =>
        rw [List.singleton_append, joinBar_cons_cons]
        rfl
    | cons x' X'' =>
      have hX' : ¬ (x' :: X'' : List (List Char)) = [] := by
        intro hcon
        cases hcon
      show joinBar (x :: x' :: (X'' ++ Y)) = joinBar (x :: x' :: X'') ++ '|' :: joinBar Y
      rw [joinBar_cons_cons x x' (X'' ++ Y), joinBar_cons_cons x x' X'']
      have h2 : joinBar (x' :: (X'' ++ Y)) = joinBar (x' :: X'') ++ '|' :: joinBar Y :=
        ih hX'
      rw [h2, List.append_assoc]
      rfl

theorem takeWhile_mono {α : Type} (p q : α → Bool)
    (himp : ∀ x, p x = true → q x = true) :
    ∀ l : List α, ∃ m, l.takeWhile q = l.takeWhile p ++ m := by
  intro l
  induction l with
  | nil => exact ⟨[], rfl⟩
  | cons a l ih =>
    by_cases hp : p a = true
    · have hq := himp a hp
      obtain ⟨m, hm⟩ := ih
      refine ⟨m, ?_⟩
      rw [List.takeWhile_cons, List.takeWhile_cons, hp, hq, hm]
      simp
    · have hpf : p a = false := by
        revert hp
        cases p a <;> simp
      refine ⟨(a :: l).takeWhile q, ?_⟩
      have hnil : List.takeWhile p (a :: l) = [] := by
        rw [List.takeWhile_cons, hpf]
        simp
      rw [hnil, List.nil_append]

theorem sigPart_data (nm : String) (ln : Nat) (hs : String) :
    (sigPart ⟨nm, some (ln, hs)⟩).data =
      nm.data ++ ':' :: ((Nat.repr ln).data ++ ':' :: hs.data) := by
  show (nm ++ ":" ++ toString ln ++ ":" ++ hs).data = _
  rw [String.data_append, String.data_append, String.data_append, String.data_append]
  have hc : (":" : String).data = [':'] := by decide
  rw [hc]
  have ht : (toString ln).data = (Nat.repr ln).data := rfl
  rw [ht]
  simp only [List.append_assoc, List.singleton_append]
  rfl

theorem sigPart_inj (nm : String) (ln₁ ln₂ : Nat) (hs₁ hs₂ : String)
    (hx₁ : Md5Hex hs₁) (hx₂ : Md5Hex hs₂)
    (h : sigPart ⟨nm, some (ln₁, hs₁)⟩ = sigPart ⟨nm, some (ln₂, hs₂)⟩) :
    ln₁ = ln₂ ∧ hs₁ = hs₂ := by
  have hd := congrArg String.data h
  rw [sigPart_data, sigPart_data] at hd
  have h1 := List.append_cancel_left hd
  injection h1 with _ h2
  have hlen : (Nat.repr ln₁).data.length = (Nat.repr ln₂).data.length := by
    have hL := congrArg List.length h2
    simp only [List.length_append, List.length_cons] at hL
    have e₁ := hx₁.1
    have e₂ := hx₂.1
    omega
  obtain ⟨hr, hres⟩ := List.append_inj h2 hlen
  injection hres with _ h3
  exact ⟨repr_injective _ _ (String.ext hr), String.ext h3⟩

/-- Cancelling the shared sorted context around the two differing parts
of a joined signature: either the parts agree or they satisfy the
rotation word equation across the middle segment. -/
theorem joinBar_cancel (P M Q : List (List Char)) (a b : List Char)
    (h : joinBar (P ++ a :: (M ++ Q)) = joinBar ((P ++ M) ++ b :: Q)) :
    a = b ∨ a ++ '|' :: joinBar M = joinBar M ++ '|' :: b := by
  have h1 : joinBar (a :: (M ++ Q)) = joinBar (M ++ b :: Q) := by
    by_cases hP : P = []
    · subst hP
      simpa using h
    · have hXl : ¬ (a :: (M ++ Q) : List (List Char)) = [] := by
        intro hc
        cases hc
      have hXr : ¬ (M ++ b :: Q : List (List Char)) = [] := by
        intro hc
        rcases List.append_eq_nil.mp hc with ⟨_, hc2⟩
        cases hc2
      rw [joinBar_append P _ hP hXl, List.append_assoc,
        joinBar_append P _ hP hXr] at h
      have h2 := List.append_cancel_left h
      injection h2
  cases M with
  | nil =>
    left
    cases Q with
    | nil => exact h1
    | cons q Q' =>
      replace h1 : a ++ '|' :: joinBar (q :: Q') = b ++ '|' :: joinBar (q :: Q') := h1
      have hlen : a.length = b.length := by
        have hL := congrArg List.length h1
        simp only [List.length_append, List.length_cons] at hL
        omega
      exact (List.append_inj h1 hlen).1
  | cons m M' =>
    right
    have hM : ¬ (m :: M' : List (List Char)) = [] := by
      intro hc
      cases hc
    cases Q with
    | nil =>
      rw [List.append_nil] at h1
      rw [joinBar_cons_cons] at h1
      rw [joinBar_append (m :: M') [b] hM (by intro hc; cases hc)] at h1
      exact h1
    | cons q Q' =>
      have hQ : ¬ (q :: Q' : List (List Char)) = [] := by
        intro hc
        cases hc
      have hL : joinBar (a :: ((m :: M') ++ q :: Q')) =
          a ++ '|' :: (joinBar (m :: M') ++ '|' :: joinBar (q :: Q')) := by
        have hstep : joinBar (a :: ((m :: M') ++ q :: Q')) =
            a ++ '|' :: joinBar ((m :: M') ++ q :: Q') := rfl
        rw [hstep, joinBar_append (m :: M') (q :: Q') hM hQ]
      have hR : joinBar ((m :: M') ++ b :: q :: Q') =
          joinBar (m :: M') ++ '|' :: (b ++ '|' :: joinBar (q :: Q')) := by
        rw [joinBar_append (m :: M') (b :: q :: Q') hM (by intro hc; cases hc)]
        rfl
      rw [hL, hR] at h1
      have h2 : (a ++ '|' :: joinBar (m :: M')) ++ '|' :: joinBar (q :: Q') =
          (joinBar (m :: M') ++ '|' :: b) ++ '|' :: joinBar (q :: Q') := by
        rw [List.append_assoc, List.append_assoc]
        exact h1
      exact (List.append_inj' h2 rfl).1

/-- Inserting two comparable parts into the same sorted context: equal
joins force either equal parts or the rotation word equation. -/
theorem sortedJoin_cases (R : List String) (pu pv : String) (hle : pu ≤ pv)
    (hj : String.intercalate "|" (List.insertionSort (· ≤ ·) (pu :: R)) =
          String.intercalate "|" (List.insertionSort (· ≤ ·) (pv :: R))) :
    pu = pv ∨ ∃ w : List Char, pu.data ++ '|' :: w = w ++ '|' :: pv.data := by
  have hSu := List.insertionSort_cons_eq_take_drop (r := (· ≤ ·)) pu R
  have hSv := List.insertionSort_cons_eq_take_drop (r := (· ≤ ·)) pv R
  rw [hSu, hSv] at hj
  obtain ⟨Mid, hMid⟩ := takeWhile_mono
    (fun b => decide ¬(pu ≤ b)) (fun b => decide ¬(pv ≤ b))
    (by
      intro x hx
      simp only [decide_eq_true_eq] at hx ⊢
      exact fun hc => hx (le_trans hle hc))
    (List.insertionSort (· ≤ ·) R)
  have hDrop : (List.insertionSort (· ≤ ·) R).dropWhile (fun b => decide ¬(pu ≤ b)) =
      Mid ++ (List.insertionSort (· ≤ ·) R).dropWhile (fun b => decide ¬(pv ≤ b)) := by
    have h1 : (List.insertionSort (· ≤ ·) R).takeWhile (fun b => decide ¬(pu ≤ b)) ++
        (List.insertionSort (· ≤ ·) R).dropWhile (fun b => decide ¬(pu ≤ b)) =
        (List.insertionSort (· ≤ ·) R).takeWhile (fun b => decide ¬(pv ≤ b)) ++
        (List.insertionSort (· ≤ ·) R).dropWhile (fun b => decide ¬(pv ≤ b)) := by
      rw [List.takeWhile_append_dropWhile, List.takeWhile_append_dropWhile]
    rw [hMid, List.append_assoc] at h1
    exact List.append_cancel_left h1
  rw [hMid, hDrop] at hj
  have hd := congrArg String.data hj
  rw [intercalate_data, intercalate_data] at hd
  rw [List.map_append, List.map_cons, List.map_append, List.map_append,
    List.map_cons] at hd
  have hd' : joinBar
      ((List.takeWhile (fun b => decide ¬(pu ≤ b)) (List.insertionSort (· ≤ ·) R)).map
          String.data ++
        pu.data :: (Mid.map String.data ++
          (List.dropWhile (fun b => decide ¬(pv ≤ b))
            (List.insertionSort (· ≤ ·) R)).map String.data)) =
      joinBar
        (((List.takeWhile (fun b => decide ¬(pu ≤ b)) (List.insertionSort (· ≤ ·) R)).map
            String.data ++ Mid.map String.data) ++
          pv.data :: (List.dropWhile (fun b => decide ¬(pv ≤ b))
            (List.insertionSort (· ≤ ·) R)).map String.data) := by
    have := hd
    simp only [List.map_append, List.map_cons, List.append_assoc] at this ⊢
    exact this
  rcases joinBar_cancel _ _ _ _ _ hd' with hcase | hcase
  · exact Or.inl (String.ext hcase)
  · exact Or.inr ⟨joinBar (Mid.map String.data), hcase⟩

/-- `_compute_upload_signature` is invariant under permuting the file
list. -/
theorem computeUploadSignature_perm (files files' : List UploadFile)
    (h : files.Perm files') :
    computeUploadSignature files = computeUploadSignature files' := by
  by_cases hnil : files = []
  · subst hnil
    have : files' = [] := List.Perm.eq_nil h.symm
    subst this
    rfl
  · have hnil' : ¬ files' = [] := by
      intro hc
      subst hc
      exact hnil (List.Perm.eq_nil h)
    unfold computeUploadSignature
    rw [if_neg hnil, if_neg hnil']
    have hsorts : List.insertionSort (· ≤ ·) (files.map sigPart) =
        List.insertionSort (· ≤ ·) (files'.map sigPart) :=
      List.eq_of_perm_of_sorted
        ((List.perm_insertionSort _ _).trans
          ((h.map sigPart).trans (List.perm_insertionSort _ _).symm))
        (List.sorted_insertionSort _ _) (List.sorted_insertionSort _ _)
    rw [hsorts]

/-- One orientation of the sensitivity argument, assuming the two parts
are ordered. -/
theorem sensAux (A B : List UploadFile) (nm : String) (ln₁ ln₂ : Nat)
    (hs₁ hs₂ : String) (hx₁ : Md5Hex hs₁) (hx₂ : Md5Hex hs₂)
    (hle : sigPart ⟨nm, some (ln₁, hs₁)⟩ ≤ sigPart ⟨nm, some (ln₂, hs₂)⟩)
    (heq : computeUploadSignature (A ++ ⟨nm, some (ln₁, hs₁)⟩ :: B) =
      computeUploadSignature (A ++ ⟨nm, some (ln₂, hs₂)⟩ :: B)) :
    ln₁ = ln₂ ∧ hs₁ = hs₂ := by
  have hne : ∀ f : UploadFile, ¬ (A ++ f :: B) = [] := by
    intro f hc
    rcases List.append_eq_nil.mp hc with ⟨_, hc2⟩
    cases hc2
  unfold computeUploadSignature at heq
  rw [if_neg (hne _), if_neg (hne _)] at heq
  rw [List.map_append, List.map_cons, List.map_append, List.map_cons] at heq
  have hsort : ∀ p : String,
      List.insertionSort (· ≤ ·) (A.map sigPart ++ p :: B.map sigPart) =
        List.insertionSort (· ≤ ·) (p :: (A.map sigPart ++ B.map sigPart)) := by
    intro p
    exact List.eq_of_perm_of_sorted
      ((List.perm_insertionSort _ _).trans
        (List.perm_middle.trans (List.perm_insertionSort _ _).symm))
      (List.sorted_insertionSort _ _) (List.sorted_insertionSort _ _)
  rw [hsort, hsort] at heq
  rcases sortedJoin_cases (A.map sigPart ++ B.map sigPart) _ _ hle heq with
    hcase | ⟨w, hw⟩
  · exact sigPart_inj nm ln₁ ln₂ hs₁ hs₂ hx₁ hx₂ hcase
  · rw [sigPart_data, sigPart_data] at hw
    have hch₁ : ':' ∉ hs₁.data := fun hmem =>
      (hexDigits_excl _ (hx₁.2 _ hmem)).1 rfl
    have hch₂ : ':' ∉ hs₂.data := fun hmem =>
      (hexDigits_excl _ (hx₂.2 _ hmem)).1 rfl
    have hph₁ : '|' ∉ hs₁.data := fun hmem =>
      (hexDigits_excl _ (hx₁.2 _ hmem)).2 rfl
    have hph₂ : '|' ∉ hs₂.data := fun hmem =>
      (hexDigits_excl _ (hx₂.2 _ hmem)).2 rfl
    have hhlen : hs₁.data.length = hs₂.data.length := by
      rw [hx₁.1, hx₂.1]
    have hllen : (Nat.repr ln₁).data.length = (Nat.repr ln₂).data.length := by
      have hL := congrArg List.length hw
      simp only [List.length_append, List.length_cons] at hL
      omega
    obtain ⟨hr, hh⟩ := wordEq w.length w nm.data (Nat.repr ln₁).data
      (Nat.repr ln₂).data hs₁.data hs₂.data (le_refl _) hllen hhlen
      (repr_no_colon ln₁) (repr_no_colon ln₂) hch₁ hch₂
      (repr_no_pipe ln₁) (repr_no_pipe ln₂) hph₁ hph₂ hw
    exact ⟨repr_injective _ _ (String.ext hr), String.ext hh⟩

/-- C9: the upload signature is order-independent — permuting the file
list leaves `_compute_upload_signature` unchanged — and sensitive to the
recorded read components: two lists that differ in exactly one file, the
two versions carrying the same name but different byte length or
different content hash (a 12-character MD5 hexdigest prefix, so made of
lowercase hexadecimal characters), always produce different signatures.
-/
theorem uploadSignature_order_and_sensitivity :
    (∀ files files' : List UploadFile, files.Perm files' →
      computeUploadSignature files = computeUploadSignature files') ∧
    (∀ (A B : List UploadFile) (nm : String) (ln₁ ln₂ : Nat) (hs₁ hs₂ : String),
      Md5Hex hs₁ → Md5Hex hs₂ → ¬ (ln₁ = ln₂ ∧ hs₁ = hs₂) →
      ¬ computeUploadSignature (A ++ ⟨nm, some (ln₁, hs₁)⟩ :: B) =
        computeUploadSignature (A ++ ⟨nm, some (ln₂, hs₂)⟩ :: B)) := by
  constructor
  · exact computeUploadSignature_perm
  · intro A B nm ln₁ ln₂ hs₁ hs₂ hx₁ hx₂ hch heq
    rcases le_total (sigPart ⟨nm, some (ln₁, hs₁)⟩) (sigPart ⟨nm, some (ln₂, hs₂)⟩) with
      hle | hle
    · exact hch (sensAux A B nm ln₁ ln₂ hs₁ hs₂ hx₁ hx₂ hle heq)
    · have := sensAux A B nm ln₂ ln₁ hs₂ hs₁ hx₂ hx₁ hle heq.symm
      exact hch ⟨this.1.symm, this.2.symm⟩

end CIFE
